import Mathlib

/-!
# Verification of the landlab `LinkCellularAutomaton` (link_ca.py)

Shallow embedding of `landlab/components/linkca/link_ca.py`: the link-state
codec, the transition tables, the event queue and the event-driven simulation
loop (`__init__`, `create_link_state_dict_and_pair_list`,
`assign_link_states_from_node_types`, `get_next_event`,
`push_transitions_to_event_queue`, `update_node_states`, `update_link_state`,
`do_transition`, `run`).

Python floats are modelled as rationals (`ℚ`); numpy integer arrays as Lean
functions/lists over `ℕ`; the numpy global PRNG as an explicit oracle stream
of unit-exponential variates threaded through the state by a draw counter.
-/

namespace LinkCA

/-- `_NEVER = 1e12` (link_ca.py line 25): sentinel "never updates" time. -/
def NEVER : ℚ := 1000000000000

/-- Modelled from the spec: `landlab.grid.base.CORE_NODE` is not under `src/`;
the spec (§4.6) only requires a distinguished "core" status value that
`node_status` is compared against. The engine compares statuses for equality
with this constant and never interprets the value otherwise. -/
def CORE_NODE : ℕ := 0

/-- `self.num_link_states = 2*self.num_node_states*self.num_node_states`
(link_ca.py line 144). -/
def num_link_states (num_node_states : ℕ) : ℕ :=
  2 * num_node_states * num_node_states

/-- The enumeration order of `create_link_state_dict_and_pair_list`
(link_ca.py lines 226-242): `for orientation in range(2): for fromstate in
range(num_node_states): for tostate in range(num_node_states)`, appending
`(fromstate, tostate, orientation)` to `self.cell_pair` at each step. -/
def cell_pair (num_node_states : ℕ) : List (ℕ × ℕ × ℕ) :=
  (List.range 2).flatMap fun orientation =>
    (List.range num_node_states).flatMap fun fromstate =>
      (List.range num_node_states).map fun tostate =>
        (fromstate, tostate, orientation)

/-- Index of the first occurrence of a key in a list (`0` past the end).
The loop of `create_link_state_dict_and_pair_list` stores the running counter
`k` in `self.link_state_dict[(fromstate,tostate,orientation)]` at the same
moment it appends the key to `self.cell_pair`, so the dictionary maps each
key to its position in `cell_pair`. -/
def dict_index : List (ℕ × ℕ × ℕ) → (ℕ × ℕ × ℕ) → ℕ
  | [], _ => 0
  | a :: l, x => if a = x then 0 else dict_index l x + 1

/-- `self.link_state_dict` lookup (link_ca.py lines 234-241). -/
def link_state_dict (num_node_states : ℕ) (node_pair : ℕ × ℕ × ℕ) : ℕ :=
  dict_index (cell_pair num_node_states) node_pair

/-- `self.cell_pair[k]` (Python list indexing; in-range whenever the engine
uses it). -/
def cell_pair_at (num_node_states k : ℕ) : ℕ × ℕ × ℕ :=
  (cell_pair num_node_states).getD k (0, 0, 0)

/-! ## Engine data model -/

/-- `Event(time, link, xn_to)` (link_ca.py lines 54-83). `__lt__` compares
times only; the heap is keyed on `time`. -/
structure Event where
  time : ℚ
  link : ℕ
  xn_to : ℕ
  deriving DecidableEq, Repr

/-- The read-only grid data the engine consumes (spec §4.6): a
`RasterModelGrid` restricted to the attributes `link_ca.py` reads.
`node_active_links` is the column of `active_node_links()` for a node, with
`-1` as the "no link" sentinel exactly as in the source. -/
structure ModelGrid where
  number_of_nodes : ℕ
  number_of_active_links : ℕ
  activelink_fromnode : ℕ → ℕ
  activelink_tonode : ℕ → ℕ
  active_links : ℕ → ℕ
  number_of_node_rows : ℕ
  number_of_node_columns : ℕ
  node_status : ℕ → ℕ
  node_active_links : ℕ → List ℤ

/-- `self.number_of_vertical_links = ncols * (nrows - 1)`
(link_ca.py lines 196-197). -/
def number_of_vertical_links (g : ModelGrid) : ℕ :=
  g.number_of_node_columns * (g.number_of_node_rows - 1)

/-- `active_link_orientation` (link_ca.py lines 252-261): `1` if the link id
is below `number_of_vertical_links` (vertical), else `0` (horizontal). -/
def active_link_orientation (g : ModelGrid) (act_link_id : ℕ) : ℕ :=
  if g.active_links act_link_id < number_of_vertical_links g then 1 else 0

/-- The per-engine constants: grid, state count, the transition tables built
by `setup_transition_data` (`n_xn`, `xn_to`, `xn_rate`, link_ca.py lines
290-326), and the PRNG oracle. `rng k` is the `k`-th unit-exponential
variate that `numpy.random.exponential` scales; the draw counter in the
engine state indexes this stream. -/
structure CAParams where
  grid : ModelGrid
  num_node_states : ℕ
  n_xn : List ℕ
  xn_to : List (List ℕ)
  xn_rate : List (List ℚ)
  rng : ℕ → ℚ

/-- `self.n_xn[s]`. -/
def nXn (p : CAParams) (s : ℕ) : ℕ := p.n_xn.getD s 0

/-- `self.xn_to[s][i]`. -/
def xnTo (p : CAParams) (s i : ℕ) : ℕ := (p.xn_to.getD s []).getD i 0

/-- `self.xn_rate[s][i]`. -/
def xnRate (p : CAParams) (s i : ℕ) : ℚ := (p.xn_rate.getD s []).getD i 0

/-- Modelled from the spec: `numpy.random.exponential(scale)` is not under
`src/`; per spec §4.4 it draws an exponential waiting time, i.e. `scale`
times a unit-exponential variate supplied here by the oracle stream. -/
def numpy_random_exponential (scale u : ℚ) : ℚ := scale * u

/-- The waiting time `numpy.random.exponential(1.0/self.xn_rate[s][i])`
drawn with the `k`-th oracle variate (link_ca.py lines 368, 373). -/
def sample (p : CAParams) (s i k : ℕ) : ℚ :=
  numpy_random_exponential (1 / xnRate p s i) (p.rng k)

/-- The mutable engine state: `self.node_state`, `self.link_state`,
`self.next_update`, `self.event_queue`, `self.current_time`, plus the PRNG
draw counter that indexes the oracle stream. -/
structure CAState where
  node_state : ℕ → ℕ
  link_state : ℕ → ℕ
  next_update : ℕ → ℚ
  event_queue : List Event
  current_time : ℚ
  ctr : ℕ

/-- Pointwise array update (`arr[i] = v` on a numpy array). -/
def fupd {α : Type} (f : ℕ → α) (i : ℕ) (v : α) : ℕ → α :=
  fun j => if j = i then v else f j

/-! ## Event queue

`heapq` keyed on `Event.__lt__` (time only): `heappush` adds the event and
`heappop` removes an event of minimal time. We model the heap contents as a
list, `heappush` as appending, and `heappop` as removing the first event of
minimal time; which of several time-tied events pops first is the heap's
internal business (spec §3: "ties broken in any stable manner"). -/

/-- `heappop`: remove an event of minimal time. -/
def popMin : List Event → Option (Event × List Event)
  | [] => none
  | e :: rest =>
    match popMin rest with
    | none => some (e, [])
    | some (m, rest') =>
      if e.time ≤ m.time then some (e, rest) else some (m, e :: rest')

/-! ## Engine operations -/

/-- One iteration of the minimum-seeking loop of `get_next_event`
(link_ca.py lines 370-376): draw `this_next` for potential transition `i`
and keep it if it beats the current minimum `acc.1`. -/
def get_next_event_loop (p : CAParams) (current_state c : ℕ)
    (acc : ℚ × Option ℕ) (i : ℕ) : ℚ × Option ℕ :=
  let this_next := sample p current_state i (c + i)
  if this_next < acc.1 then (this_next, some (xnTo p current_state i))
  else acc

/-- `get_next_event(link, current_state, current_time)` (link_ca.py lines
336-387). Returns the event and the advanced draw counter. With a single
potential transition one variate is drawn; otherwise one per potential
transition and the smallest waiting time wins (`xn` stays `None` if every
draw reaches `_NEVER`; the source would then enqueue `xn_to = None`, modelled
by the `getD 0` default, unreachable while draws stay below `_NEVER`). -/
def get_next_event (p : CAParams) (link current_state : ℕ)
    (current_time : ℚ) (c : ℕ) : Event × ℕ :=
  if nXn p current_state = 1 then
    (⟨sample p current_state 0 c + current_time, link, xnTo p current_state 0⟩,
      c + 1)
  else
    let r := (List.range (nXn p current_state)).foldl
      (get_next_event_loop p current_state c) (NEVER, none)
    (⟨r.1 + current_time, link, r.2.getD 0⟩, c + nXn p current_state)

/-- `update_node_states(fromnode, tonode, new_link_state)` (link_ca.py lines
412-434): write the decoded pair states to the endpoints that are core
nodes; return the state together with the two "changed" booleans. -/
def update_node_states (p : CAParams) (fromnode tonode new_link_state : ℕ)
    (s : CAState) : CAState × Bool × Bool :=
  let old_fromnode_state := s.node_state fromnode
  let old_tonode_state := s.node_state tonode
  let ns1 := if p.grid.node_status fromnode = CORE_NODE then
      fupd s.node_state fromnode (cell_pair_at p.num_node_states new_link_state).1
    else s.node_state
  let ns2 := if p.grid.node_status tonode = CORE_NODE then
      fupd ns1 tonode (cell_pair_at p.num_node_states new_link_state).2.1
    else ns1
  ({ s with node_state := ns2 },
    decide (ns2 fromnode ≠ old_fromnode_state),
    decide (ns2 tonode ≠ old_tonode_state))

/-- `update_link_state(link, new_link_state, current_time)` (link_ca.py lines
437-474): if an endpoint is a boundary node the planned state is overridden
by re-encoding the actual endpoint states; then the link state is written and
the link is rescheduled (new event if the state has outgoing transitions,
`_NEVER` otherwise). -/
def update_link_state (p : CAParams) (link new_link_state : ℕ)
    (current_time : ℚ) (s : CAState) : CAState :=
  let fn := p.grid.activelink_fromnode link
  let tn := p.grid.activelink_tonode link
  let nls := if p.grid.node_status fn ≠ CORE_NODE ∨
      p.grid.node_status tn ≠ CORE_NODE then
      link_state_dict p.num_node_states
        (s.node_state fn, s.node_state tn, active_link_orientation p.grid link)
    else new_link_state
  let s1 := { s with link_state := fupd s.link_state link nls }
  if 0 < nXn p nls then
    let ec := get_next_event p link nls current_time s1.ctr
    { s1 with
      event_queue := s1.event_queue ++ [ec.1],
      next_update := fupd s1.next_update link ec.1.time,
      ctr := ec.2 }
  else
    { s1 with next_update := fupd s1.next_update link NEVER }

/-- One step of the neighbor cascade in `do_transition` (link_ca.py lines
541-553 and 560-572): for an entry of `node_active_links[:,node]` that is
neither the `-1` sentinel nor the event's own link, recompute the link state
from the current endpoint states and reschedule. -/
def cascade_step (p : CAParams) (event_link : ℕ) (event_time : ℚ)
    (st : CAState) (link : ℤ) : CAState :=
  if link ≠ -1 ∧ link ≠ (event_link : ℤ) then
    let l := link.toNat
    let this_link_fromnode := p.grid.activelink_fromnode l
    let this_link_tonode := p.grid.activelink_tonode l
    let orientation := active_link_orientation p.grid l
    let new_link_state := link_state_dict p.num_node_states
      (st.node_state this_link_fromnode, st.node_state this_link_tonode,
        orientation)
    update_link_state p l new_link_state event_time st
  else st

/-- `do_transition(event, current_time)` (link_ca.py lines 483-588). The
`current_time` argument is accepted and, as in the source, never used: the
event is applied iff its time matches `next_update[event.link]`, and all
rescheduling happens at `event.time`. -/
def do_transition (p : CAParams) (event : Event) (current_time : ℚ)
    (s : CAState) : CAState :=
  if event.time = s.next_update event.link then
    let fromnode := p.grid.activelink_fromnode event.link
    let tonode := p.grid.activelink_tonode event.link
    let r := update_node_states p fromnode tonode event.xn_to s
    let s2 := update_link_state p event.link event.xn_to event.time r.1
    let s3 := if r.2.1 then
        (p.grid.node_active_links fromnode).foldl
          (cascade_step p event.link event.time) s2
      else s2
    if r.2.2 then
      (p.grid.node_active_links tonode).foldl
        (cascade_step p event.link event.time) s3
    else s3
  else s

/-- `assign_link_states_from_node_types` (link_ca.py lines 264-287): the
link-state array, entry `i` (for `i` below the active-link count) encoding
the endpoint states and the orientation. -/
def assign_link_states_from_node_types (p : CAParams) (s : CAState) : CAState :=
  { s with link_state := fun i =>
      if i < p.grid.number_of_active_links then
        link_state_dict p.num_node_states (s.node_state (p.grid.activelink_fromnode i),
          s.node_state (p.grid.activelink_tonode i), active_link_orientation p.grid i)
      else 0 }

/-- One loop body of `push_transitions_to_event_queue` (link_ca.py lines
394-404). -/
def push_transitions_step (p : CAParams) (st : CAState) (i : ℕ) : CAState :=
  if 0 < nXn p (st.link_state i) then
    let ec := get_next_event p i (st.link_state i) 0 st.ctr
    { st with
      event_queue := st.event_queue ++ [ec.1],
      next_update := fupd st.next_update i ec.1.time,
      ctr := ec.2 }
  else
    { st with next_update := fupd st.next_update i NEVER }

/-- `push_transitions_to_event_queue` (link_ca.py lines 390-404). -/
def push_transitions_to_event_queue (p : CAParams) (s : CAState) : CAState :=
  (List.range p.grid.number_of_active_links).foldl (push_transitions_step p) s

/-- The state-building part of `LinkCellularAutomaton.__init__` (link_ca.py
lines 120-206): `current_time = 0`, zeroed `next_update`, empty event queue,
the initial node states, link states derived from node states, and the
initial events pushed. -/
def construct (p : CAParams) (initial_node_states : ℕ → ℕ) : CAState :=
  push_transitions_to_event_queue p
    (assign_link_states_from_node_types p
      { node_state := initial_node_states
        link_state := fun _ => 0
        next_update := fun _ => 0
        event_queue := []
        current_time := 0
        ctr := 0 })

/-- `run(run_duration)` (link_ca.py lines 688-710), with a fuel bound on the
number of loop iterations (the source's `while` loop need not terminate).
Besides the final state, returns the ghost trace of the scheduled times of
the events that were actually applied (not discarded as stale), in
application order. -/
def run (p : CAParams) (fuel : ℕ) (run_duration : ℚ) (s : CAState) :
    CAState × List ℚ :=
  match fuel with
  | 0 => (s, [])
  | fuel + 1 =>
    if s.current_time < run_duration ∧ s.event_queue ≠ [] then
      match popMin s.event_queue with
      | none => (s, [])
      | some (ev, rest) =>
        let s1 := do_transition p ev s.current_time
          { s with event_queue := rest }
        let s2 := { s1 with current_time := ev.time }
        let r := run p fuel run_duration s2
        if ev.time = s.next_update ev.link then (r.1, ev.time :: r.2)
        else (r.1, r.2)
    else (s, [])

/-! ## Invariants and hypotheses -/

/-- Link `l`'s stored state encodes its endpoints' current node states and
its orientation. -/
def okAt (p : CAParams) (s : CAState) (l : ℕ) : Prop :=
  s.link_state l = link_state_dict p.num_node_states
    (s.node_state (p.grid.activelink_fromnode l),
      s.node_state (p.grid.activelink_tonode l),
      active_link_orientation p.grid l)

instance decOkAt (p : CAParams) (s : CAState) (l : ℕ) : Decidable (okAt p s l) := by
  unfold okAt
  infer_instance

/-- Spec invariant I3 / P1: every active link's state encodes its endpoints'
current cell states and its orientation. -/
def linkConsistent (p : CAParams) (s : CAState) : Prop :=
  ∀ l, l < p.grid.number_of_active_links → okAt p s l

/-- All node states lie below `num_node_states`. -/
def nodeStatesOk (p : CAParams) (s : CAState) : Prop :=
  ∀ j, s.node_state j < p.num_node_states

/-- Every queued event targets an in-range link state whose decoded
orientation is the orientation of the event's link. -/
def queueOrientOk (p : CAParams) (s : CAState) : Prop :=
  ∀ e ∈ s.event_queue,
    e.xn_to < num_link_states p.num_node_states ∧
      e.xn_to / (p.num_node_states * p.num_node_states) =
        active_link_orientation p.grid e.link

/-- The inductive engine invariant behind P1/I3. -/
def engineInv (p : CAParams) (s : CAState) : Prop :=
  linkConsistent p s ∧ nodeStatesOk p s ∧ queueOrientOk p s

instance decLinkConsistent (p : CAParams) (s : CAState) :
    Decidable (linkConsistent p s) := by
  unfold linkConsistent
  exact Nat.decidableBallLT _ _

instance decQueueOrientOk (p : CAParams) (s : CAState) :
    Decidable (queueOrientOk p s) := by
  unfold queueOrientOk
  exact List.decidableBAll _ _

/-- The grid-adapter contract (spec §4.6): an active link joins two distinct
nodes and appears in the incident-link list of both endpoints. -/
def gridContract (p : CAParams) : Prop :=
  ∀ l, l < p.grid.number_of_active_links →
    p.grid.activelink_fromnode l ≠ p.grid.activelink_tonode l ∧
      (l : ℤ) ∈ p.grid.node_active_links (p.grid.activelink_fromnode l) ∧
      (l : ℤ) ∈ p.grid.node_active_links (p.grid.activelink_tonode l)

instance decGridContract (p : CAParams) : Decidable (gridContract p) := by
  unfold gridContract
  exact Nat.decidableBallLT _ _

/-- The transition table maps in-range link states to in-range link states of
the same orientation. -/
def xnPreservesOrientation (p : CAParams) : Prop :=
  ∀ st, st < num_link_states p.num_node_states →
    ∀ i, i < nXn p st →
      xnTo p st i < num_link_states p.num_node_states ∧
        xnTo p st i / (p.num_node_states * p.num_node_states) =
          st / (p.num_node_states * p.num_node_states)

instance decXnPreservesOrientation (p : CAParams) :
    Decidable (xnPreservesOrientation p) := by
  unfold xnPreservesOrientation
  exact Nat.decidableBallLT _ _

/-- Every exponential waiting time the oracle can produce is nonnegative
(exponential variates are nonnegative). -/
def samplesNonneg (p : CAParams) : Prop :=
  ∀ st i k, 0 ≤ sample p st i k

/-- Every exponential waiting time the oracle can produce is below the
`_NEVER` sentinel (spec I2: the sentinel exceeds all achievable times). -/
def samplesBounded (p : CAParams) : Prop :=
  ∀ st i k, sample p st i k < NEVER

/-- Every queued event is scheduled no earlier than the current time. -/
def queueTimesGE (s : CAState) : Prop :=
  ∀ e ∈ s.event_queue, s.current_time ≤ e.time

instance decQueueTimesGE (s : CAState) : Decidable (queueTimesGE s) := by
  unfold queueTimesGE
  exact List.decidableBAll _ _

/-! ## Transition rules: constructor validation and normalization -/

/-- A `from_state`/`to_state` of a `Transition`: either an integer link-state
id or an explicit `(from, to, orientation)` tuple (link_ca.py lines 40-44). -/
inductive TransState where
  | stateId : ℕ → TransState
  | triple : ℕ × ℕ × ℕ → TransState
  deriving DecidableEq, Repr

/-- `Transition(from_state, to_state, rate, name)` (link_ca.py lines 46-51). -/
structure Transition where
  from_state : TransState
  to_state : TransState
  rate : ℚ
  name : Option String
  deriving DecidableEq, Repr

instance : Inhabited Transition where
  default := ⟨TransState.stateId 0, TransState.stateId 0, 0, none⟩

/-- The per-rule check of the validation loop in `__init__` (link_ca.py lines
150-170). `some false` means the rule passed as id form (`try` branch: both
states integers below `num_link_states`), `some true` as tuple form (`except`
branch: both states tuples with node states below `num_node_states` and the
orientation below 2), `none` means an assertion failed (construction aborts).
No check mentions `rate`. -/
def classify_transition (nls nns : ℕ) (t : Transition) : Option Bool :=
  match t.from_state, t.to_state with
  | TransState.stateId fs, TransState.stateId ts =>
    if fs < nls ∧ ts < nls then some false else none
  | TransState.triple fs, TransState.triple ts =>
    if fs.1 < nns ∧ fs.2.1 < nns ∧ fs.2.2 < 2 ∧
        ts.1 < nns ∧ ts.2.1 < nns ∧ ts.2.2 < 2 then
      some true
    else none
  | _, _ => none

/-- The validation loop (link_ca.py lines 149-174) with its `last_type`
accumulator: every rule must pass `classify_transition` and all rules must
have the same form (`assert last_type==this_type or last_type==None`). -/
def validate_loop (nls nns : ℕ) :
    List Transition → Option Bool → Bool
  | [], _ => true
  | t :: rest, last_type =>
    match classify_transition nls nns t with
    | none => false
    | some this_type =>
      if last_type = none ∨ last_type = some this_type then
        validate_loop nls nns rest (some this_type)
      else false

/-- All rule-list validation performed by `__init__` before any simulation
state is built (link_ca.py lines 146-174): the list is non-empty
(`assert (transition_list)`) and the loop accepts every rule. `true` means
construction proceeds; `false` means it raises. -/
def validate_transition_list (nls nns : ℕ)
    (transition_list : List Transition) : Bool :=
  decide (transition_list ≠ []) && validate_loop nls nns transition_list none

/-- `self.link_state_dict[state]` applied to a `from_state`/`to_state` during
normalization; tuple-form states become integer ids (id-form states are
returned unchanged, though the source only runs normalization on tuple-form
lists). -/
def trans_state_to_ID (nns : ℕ) : TransState → TransState
  | TransState.triple tr => TransState.stateId (link_state_dict nns tr)
  | TransState.stateId k => TransState.stateId k

/-- One iteration `i` of the normalization loop (link_ca.py lines 189-191):
`transition_list_as_ID[i].from_state = self.link_state_dict[transition_list[i].from_state]`
and likewise for `to_state`. Since `transition_list_as_ID = transition_list[:]`
is a shallow copy (line 186), entry `i` of both lists is a reference to the
same `Transition` object; both the read and the write go through that shared
object. We model Python objects by a `store` of `Transition` records indexed
by reference, and a list as its list of references. -/
def normalize_step (nns : ℕ) (store : List Transition) (ref : ℕ) :
    List Transition :=
  let t := store.getD ref default
  store.set ref { t with
    from_state := trans_state_to_ID nns t.from_state,
    to_state := trans_state_to_ID nns t.to_state }

/-- The `transition_list_as_ID` pass of `__init__` (link_ca.py lines
183-191): when the first rule's `from_state` is a tuple, every referenced
`Transition` object has its `from_state`/`to_state` overwritten in place
with integer ids. -/
def transition_list_to_ID (nns : ℕ) (store : List Transition)
    (refs : List ℕ) : List Transition :=
  match (store.getD (refs.getD 0 0) default).from_state with
  | TransState.triple _ => refs.foldl (normalize_step nns) store
  | TransState.stateId _ => store

/-! ## Concrete instances (used by witnesses and counterexamples)

A 1×2 raster patch: two core nodes joined by one horizontal active link,
two node states. -/

/-- Two nodes, one horizontal active link, both nodes core. -/
def exGrid : ModelGrid where
  number_of_nodes := 2
  number_of_active_links := 1
  activelink_fromnode := fun _ => 0
  activelink_tonode := fun _ => 1
  active_links := fun i => i
  number_of_node_rows := 1
  number_of_node_columns := 2
  node_status := fun _ => 0
  node_active_links := fun j => if j < 2 then [0] else []

/-- Two node states; single rule `1 → 3` (horizontal `0-1` to horizontal
`1-1`, orientation preserving) at rate 1; oracle stream identically `0`. -/
def exP : CAParams where
  grid := exGrid
  num_node_states := 2
  n_xn := [0, 1, 0, 0, 0, 0, 0, 0]
  xn_to := [[0], [3], [0], [0], [0], [0], [0], [0]]
  xn_rate := [[0], [1], [0], [0], [0], [0], [0], [0]]
  rng := fun _ => 0

/-- Like `exP` but with the orientation-changing rule `1 → 7` (horizontal
`0-1` to vertical `1-1`); it passes every constructor check. -/
def exBadP : CAParams where
  grid := exGrid
  num_node_states := 2
  n_xn := [0, 1, 0, 0, 0, 0, 0, 0]
  xn_to := [[0], [7], [0], [0], [0], [0], [0], [0]]
  xn_rate := [[0], [1], [0], [0], [0], [0], [0], [0]]
  rng := fun _ => 0

/-- Like `exP` but node 1 is a boundary (non-core) node. -/
def exPB : CAParams where
  grid := { exGrid with node_status := fun j => if j = 1 then 1 else 0 }
  num_node_states := 2
  n_xn := [0, 1, 0, 0, 0, 0, 0, 0]
  xn_to := [[0], [3], [0], [0], [0], [0], [0], [0]]
  xn_rate := [[0], [1], [0], [0], [0], [0], [0], [0]]
  rng := fun _ => 0

/-- Initial node states `[0, 1]`. -/
def exInit : ℕ → ℕ := fun j => j % 2

/-- A state whose only queued event is stale: the event's time `5` differs
from the authoritative `next_update` entry `99` of its link. -/
def exStaleS : CAState where
  node_state := fun j => j % 2
  link_state := fun _ => 1
  next_update := fun _ => 99
  event_queue := [⟨5, 0, 3⟩]
  current_time := 0
  ctr := 0

/-- A transition rule in id form whose rate is `0` (non-positive). -/
def exZeroRateRule : Transition :=
  ⟨TransState.stateId 1, TransState.stateId 3, 0, none⟩

/-- A Python object store holding two tuple-form transitions; the caller's
`transition_list` holds references `[0, 1]` into the store. -/
def exTupleStore : List Transition :=
  [⟨TransState.triple (0, 1, 0), TransState.triple (1, 1, 0), 1, none⟩,
    ⟨TransState.triple (1, 0, 0), TransState.triple (1, 1, 0), 1, none⟩]


section CodecLemmas

lemma flatMap_range_length {α : Type} (g : ℕ → List α) (L m : ℕ)
    (h : ∀ x, (g x).length = L) :
    ((List.range m).flatMap g).length = m * L := by
  induction m with
  | zero => simp
  | succ m ih =>
    rw [List.range_succ, List.flatMap_append, List.length_append, ih]
    simp [h, Nat.succ_mul]

lemma flatMap_range_get? {α : Type} (g : ℕ → List α) (L m i j : ℕ)
    (h : ∀ x, (g x).length = L) (hi : i < m) (hj : j < L) :
    ((List.range m).flatMap g).get? (i * L + j) = (g i).get? j := by
  induction m with
  | zero => omega
  | succ m ih =>
    rw [List.range_succ, List.flatMap_append]
    rcases Nat.lt_or_ge i m with hi' | hi'
    · rw [List.get?_append, ih hi']
      rw [flatMap_range_length g L m h]
      calc i * L + j < i * L + L := by omega
        _ = (i + 1) * L := by ring
        _ ≤ m * L := Nat.mul_le_mul_right L hi'
    · have him : i = m := by omega
      subst him
      rw [List.get?_append_right]
      · rw [flatMap_range_length g L i h, Nat.add_sub_cancel_left]
        simp
      · rw [flatMap_range_length g L i h]
        omega

lemma cell_pair_length (n : ℕ) : (cell_pair n).length = 2 * (n * n) := by
  unfold cell_pair
  rw [flatMap_range_length _ (n * n)]
  intro x
  rw [flatMap_range_length _ n]
  intro y
  simp

lemma encode_lt {n f t o : ℕ} (hf : f < n) (ht : t < n) (ho : o < 2) :
    o * (n * n) + f * n + t < 2 * (n * n) := by
  have h1 : f * n + t < n * n := by
    calc f * n + t < f * n + n := by omega
      _ = (f + 1) * n := by ring
      _ ≤ n * n := Nat.mul_le_mul_right n hf
  calc o * (n * n) + f * n + t < o * (n * n) + n * n := by omega
    _ = (o + 1) * (n * n) := by ring
    _ ≤ 2 * (n * n) := Nat.mul_le_mul_right (n * n) ho

lemma cell_pair_get? {n f t o : ℕ} (hf : f < n) (ht : t < n) (ho : o < 2) :
    (cell_pair n).get? (o * (n * n) + f * n + t) = some (f, t, o) := by
  unfold cell_pair
  have h1 : ∀ x : ℕ, ((List.range n).flatMap fun fromstate =>
      (List.range n).map fun tostate => (fromstate, tostate, x)).length = n * n := by
    intro x
    rw [flatMap_range_length _ n]
    intro y
    simp
  have h2 : f * n + t < n * n := by
    calc f * n + t < f * n + n := by omega
      _ = (f + 1) * n := by ring
      _ ≤ n * n := Nat.mul_le_mul_right n hf
  have h3 : o * (n * n) + f * n + t = o * (n * n) + (f * n + t) := by ring
  rw [h3, flatMap_range_get? _ (n * n) 2 o (f * n + t) h1 ho h2]
  rw [flatMap_range_get? _ n n f t (fun y => by simp) hf ht]
  simp [List.get?_map, List.getElem?_range ht]

/-- Arithmetic decomposition of an in-range link-state id. -/
lemma decode_components {n k : ℕ} (hk : k < 2 * (n * n)) :
    k / n % n < n ∧ k % n < n ∧ k / (n * n) < 2 ∧
      (k / (n * n)) * (n * n) + (k / n % n) * n + k % n = k := by
  have hn : 0 < n := by
    rcases Nat.eq_zero_or_pos n with h | h
    · subst h; omega
    · exact h
  have hnn : 0 < n * n := Nat.mul_pos hn hn
  refine ⟨Nat.mod_lt _ hn, Nat.mod_lt _ hn, ?_, ?_⟩
  · rw [Nat.div_lt_iff_lt_mul hnn]
    omega
  · have e1 : k / (n * n) = k / n / n := (Nat.div_div_eq_div_mul k n n).symm
    have e2 : (k / n / n) * n + k / n % n = k / n := by
      rw [Nat.mul_comm]
      exact Nat.div_add_mod (k / n) n
    have e3 : (k / n) * n + k % n = k := by
      rw [Nat.mul_comm]
      exact Nat.div_add_mod k n
    calc (k / (n * n)) * (n * n) + (k / n % n) * n + k % n
        = ((k / n / n) * n + k / n % n) * n + k % n := by rw [e1]; ring
      _ = (k / n) * n + k % n := by rw [e2]
      _ = k := e3

/-- Forward decomposition: the components of an encoded triple. -/
lemma encode_components {n f t o : ℕ} (hf : f < n) (ht : t < n) (ho : o < 2) :
    (o * (n * n) + f * n + t) % n = t ∧
      (o * (n * n) + f * n + t) / n % n = f ∧
      (o * (n * n) + f * n + t) / (n * n) = o := by
  have hn : 0 < n := by omega
  have e1 : o * (n * n) + f * n + t = t + (o * n + f) * n := by ring
  have h2 : (o * (n * n) + f * n + t) % n = t := by
    rw [e1, Nat.add_mul_mod_self_right, Nat.mod_eq_of_lt ht]
  have h3 : (o * (n * n) + f * n + t) / n = o * n + f := by
    rw [e1, Nat.add_mul_div_right _ _ hn, Nat.div_eq_of_lt ht, Nat.zero_add]
  have h4 : (o * n + f) % n = f := by
    rw [Nat.add_comm, Nat.add_mul_mod_self_right, Nat.mod_eq_of_lt hf]
  have h5 : (o * n + f) / n = o := by
    rw [Nat.add_comm, Nat.add_mul_div_right _ _ hn, Nat.div_eq_of_lt hf,
      Nat.zero_add]
  refine ⟨h2, ?_, ?_⟩
  · rw [h3, h4]
  · rw [← Nat.div_div_eq_div_mul, h3, h5]

lemma cell_pair_get?' {n k : ℕ} (hk : k < 2 * (n * n)) :
    (cell_pair n).get? k = some (k / n % n, k % n, k / (n * n)) := by
  obtain ⟨hf, ht, ho, hrec⟩ := decode_components (n := n) hk
  have := cell_pair_get? (n := n) hf ht ho
  rwa [hrec] at this

lemma cell_pair_at_eq {n k : ℕ} (hk : k < 2 * (n * n)) :
    cell_pair_at n k = (k / n % n, k % n, k / (n * n)) := by
  unfold cell_pair_at
  rw [List.getD_eq_getElem?_getD, ← List.get?_eq_getElem?, cell_pair_get?' hk]
  rfl

lemma dict_index_spec {l : List (ℕ × ℕ × ℕ)} {x : ℕ × ℕ × ℕ} {i : ℕ}
    (h : l.get? i = some x) (hmin : ∀ j, j < i → l.get? j ≠ some x) :
    dict_index l x = i := by
  induction l generalizing i with
  | nil => simp at h
  | cons a l ih =>
    cases i with
    | zero =>
      simp at h
      simp [dict_index, h]
    | succ i =>
      simp only [List.get?] at h
      have hne : a ≠ x := by
        intro he
        exact hmin 0 (Nat.succ_pos i) (by simp [he])
      rw [dict_index, if_neg hne, ih h]
      intro j hj
      exact fun hc => hmin (j + 1) (by omega) (by simpa using hc)

/-- Claim core for C2: the dictionary built by
`create_link_state_dict_and_pair_list` realizes the canonical enumeration. -/
lemma link_state_dict_encode {n f t o : ℕ} (hf : f < n) (ht : t < n)
    (ho : o < 2) :
    link_state_dict n (f, t, o) = o * (n * n) + f * n + t := by
  unfold link_state_dict
  apply dict_index_spec (cell_pair_get? hf ht ho)
  intro j hj hc
  have hj2 : j < 2 * (n * n) := lt_trans hj (encode_lt hf ht ho)
  rw [cell_pair_get?' hj2] at hc
  obtain ⟨hf', ht', ho', hrec⟩ := decode_components (n := n) hj2
  have h1 : j / n % n = f := (Prod.mk.injEq _ _ _ _).mp (Option.some.injEq _ _ ▸ hc) |>.1
  have h2 : j % n = t := by
    have := (Prod.mk.injEq _ _ _ _).mp (Option.some.injEq _ _ ▸ hc) |>.2
    exact ((Prod.mk.injEq _ _ _ _).mp this).1
  have h3 : j / (n * n) = o := by
    have := (Prod.mk.injEq _ _ _ _).mp (Option.some.injEq _ _ ▸ hc) |>.2
    exact ((Prod.mk.injEq _ _ _ _).mp this).2
  rw [h1, h2, h3] at hrec
  omega

end CodecLemmas

/-! ## Small evaluation helpers shared by concrete counterexamples -/

lemma range_one_eq : List.range 1 = [0] := rfl

lemma cell_pair_two : cell_pair 2 =
    [(0, 0, 0), (0, 1, 0), (1, 0, 0), (1, 1, 0),
      (0, 0, 1), (0, 1, 1), (1, 0, 1), (1, 1, 1)] := rfl

/-! ## C2: the canonical link-state enumeration -/

/-- C2: the codec enumerates orientation outermost, then from-state, then
to-state, so the id assigned to `(f, t, o)` is `o·N² + f·N + t`, and the
number of link states is `N_orient·N_cell² = 2·N²` for the raster engine
(`num_link_states`, the codomain the dictionary and `cell_pair` enumerate). -/
theorem C2_canonical_enumeration (n f t o : ℕ) (hf : f < n) (ht : t < n)
    (ho : o < 2) :
    link_state_dict n (f, t, o) = o * (n * n) + f * n + t ∧
      num_link_states n = 2 * (n * n) ∧
      (cell_pair n).length = num_link_states n := by
  refine ⟨link_state_dict_encode hf ht ho, by unfold num_link_states; ring, ?_⟩
  rw [cell_pair_length]
  unfold num_link_states
  ring

/-- Witness for C2 at `N_cell = 2`, triple `(1, 0, 1)`. -/
theorem C2_canonical_enumeration_witness :
    link_state_dict 2 (1, 0, 1) = 1 * (2 * 2) + 1 * 2 + 0 ∧
      num_link_states 2 = 2 * (2 * 2) ∧
      (cell_pair 2).length = num_link_states 2 :=
  C2_canonical_enumeration 2 1 0 1 (by decide) (by decide) (by decide)

/-! ## C8: encode and decode are mutual inverses -/

/-- C8: over the full domain, `cell_pair[link_state_dict[(f,t,o)]] = (f,t,o)`
and `link_state_dict[cell_pair[k]] = k`. -/
theorem C8_codec_mutual_inverses (n : ℕ) :
    (∀ f t o, f < n → t < n → o < 2 →
      cell_pair_at n (link_state_dict n (f, t, o)) = (f, t, o)) ∧
      ∀ k, k < num_link_states n → link_state_dict n (cell_pair_at n k) = k := by
  have hnls : num_link_states n = 2 * (n * n) := by unfold num_link_states; ring
  constructor
  · intro f t o hf ht ho
    rw [link_state_dict_encode hf ht ho, cell_pair_at_eq (encode_lt hf ht ho)]
    obtain ⟨h1, h2, h3⟩ := encode_components hf ht ho
    rw [h1, h2, h3]
  · intro k hk
    rw [hnls] at hk
    obtain ⟨hf, ht, ho, hrec⟩ := decode_components hk
    rw [cell_pair_at_eq hk, link_state_dict_encode hf ht ho, hrec]

/-- Witness for C8 at `N_cell = 2`: round trips through `(0, 1, 1)` and
through id `6`. -/
theorem C8_codec_mutual_inverses_witness :
    cell_pair_at 2 (link_state_dict 2 (0, 1, 1)) = (0, 1, 1) ∧
      link_state_dict 2 (cell_pair_at 2 6) = 6 :=
  ⟨(C8_codec_mutual_inverses 2).1 0 1 1 (by decide) (by decide) (by decide),
    (C8_codec_mutual_inverses 2).2 6 (by decide)⟩

/-! ## C4: stale events are discarded without any effect -/

/-- C4: when a popped event's time differs from the authoritative
`next_update` entry of its link, `do_transition` returns the state unchanged
(node states, link states, `next_update`, event queue, clock and draw counter
all identical): the stale event is simply discarded. -/
theorem C4_stale_event_is_noop (p : CAParams) (event : Event)
    (current_time : ℚ) (s : CAState)
    (h : event.time ≠ s.next_update event.link) :
    do_transition p event current_time s = s := by
  unfold do_transition
  rw [if_neg h]

/-- Witness for C4: the stale event `⟨5, 0, 3⟩` against `next_update 0 = 99`. -/
theorem C4_stale_event_is_noop_witness :
    do_transition exP ⟨5, 0, 3⟩ 0 exStaleS = exStaleS :=
  C4_stale_event_is_noop exP ⟨5, 0, 3⟩ 0 exStaleS (by norm_num [exStaleS])

/-! ## C9: determinism -/

/-- C9: the engine is a deterministic function of its inputs — identical
grid, tables, initial node states and oracle stream (all packed in
`CAParams`/`initial_node_states`) produce identical runs: the same final
state (node-state and link-state arrays included) and the same applied-event
trace. -/
theorem C9_run_is_deterministic (p1 p2 : CAParams) (init1 init2 : ℕ → ℕ)
    (fuel : ℕ) (run_duration : ℚ)
    (hp : p1 = p2) (hinit : ∀ j, init1 j = init2 j) :
    run p1 fuel run_duration (construct p1 init1) =
      run p2 fuel run_duration (construct p2 init2) := by
  subst hp
  have h : init1 = init2 := funext hinit
  subst h
  rfl

/-- Witness for C9: two identically-configured runs coincide. -/
theorem C9_run_is_deterministic_witness :
    run exP 1 1 (construct exP exInit) = run exP 1 1 (construct exP exInit) :=
  C9_run_is_deterministic exP exP exInit exInit 1 1 rfl (fun _ => rfl)

/-! ## C7: the constructor does not validate rates -/

lemma classify_transition_rate_irrelevant (nls nns : ℕ) (t : Transition)
    (r : ℚ) :
    classify_transition nls nns { t with rate := r } =
      classify_transition nls nns t := by
  cases t
  rfl

lemma validate_loop_rate_irrelevant (nls nns : ℕ) (r : ℚ) :
    ∀ (tl : List Transition) (last_type : Option Bool),
      validate_loop nls nns (tl.map fun t => { t with rate := r }) last_type =
        validate_loop nls nns tl last_type := by
  intro tl
  induction tl with
  | nil => intro last_type; rfl
  | cons t rest ih =>
    intro last_type
    simp only [List.map_cons, validate_loop, classify_transition_rate_irrelevant]
    cases classify_transition nls nns t with
    | none => rfl
    | some b =>
      dsimp only
      by_cases hc : last_type = none ∨ last_type = some b
      · rw [if_pos hc, if_pos hc, ih]
      · rw [if_neg hc, if_neg hc]

/-- C7 counterexample: a one-rule list whose rate is `0 ≤ 0` passes every
check `__init__` performs before building simulation state, refuting the
claim that a non-positive rate makes construction fail. -/
theorem C7_counterexample :
    exZeroRateRule.rate ≤ 0 ∧
      validate_transition_list (num_link_states 2) 2 [exZeroRateRule] = true := by
  constructor
  · norm_num [exZeroRateRule]
  · decide

/-- C7 amended: the constructor's rule validation never inspects rates — its
outcome is invariant under replacing every rate by an arbitrary value (in
particular a non-positive one), so a non-positive rate is accepted whenever
the same rule with a positive rate is. -/
theorem C7_validation_ignores_rates (nls nns : ℕ)
    (transition_list : List Transition) (r : ℚ) :
    validate_transition_list nls nns
        (transition_list.map fun t => { t with rate := r }) =
      validate_transition_list nls nns transition_list := by
  unfold validate_transition_list
  rw [validate_loop_rate_irrelevant]
  congr 1
  simp

/-! ## C10: normalization mutates the caller's Transition objects -/

lemma normalize_step_length (nns : ℕ) (store : List Transition) (x : ℕ) :
    (normalize_step nns store x).length = store.length := by
  unfold normalize_step
  exact List.length_set store x _

lemma normalize_step_getD_ne (nns : ℕ) (store : List Transition) (x r : ℕ)
    (h : x ≠ r) :
    (normalize_step nns store x).getD r default = store.getD r default := by
  unfold normalize_step
  rw [List.getD_eq_getElem?_getD, List.getElem?_set_ne h,
    ← List.getD_eq_getElem?_getD]

lemma normalize_step_getD_eq (nns : ℕ) (store : List Transition) (x : ℕ)
    (h : x < store.length) :
    (normalize_step nns store x).getD x default =
      { store.getD x default with
        from_state := trans_state_to_ID nns (store.getD x default).from_state,
        to_state := trans_state_to_ID nns (store.getD x default).to_state } := by
  unfold normalize_step
  rw [List.getD_eq_getElem?_getD, List.getElem?_set_eq_of_lt _ h]
  rfl

lemma normalize_foldl_getD_not_mem (nns : ℕ) :
    ∀ (refs : List ℕ) (store : List Transition) (r : ℕ), r ∉ refs →
      (refs.foldl (normalize_step nns) store).getD r default =
        store.getD r default := by
  intro refs
  induction refs with
  | nil => intro store r _; rfl
  | cons x xs ih =>
    intro store r hr
    rw [List.foldl_cons, ih _ _ (fun h => hr (List.mem_cons_of_mem x h)),
      normalize_step_getD_ne nns store x r (fun h => hr (h ▸ List.mem_cons_self x xs))]

lemma normalize_foldl_getD (nns : ℕ) :
    ∀ (refs : List ℕ) (store : List Transition) (r : ℕ),
      refs.Nodup → r ∈ refs → r < store.length →
      (refs.foldl (normalize_step nns) store).getD r default =
        { store.getD r default with
          from_state := trans_state_to_ID nns (store.getD r default).from_state,
          to_state := trans_state_to_ID nns (store.getD r default).to_state } := by
  intro refs
  induction refs with
  | nil => intro store r _ hr; cases hr
  | cons x xs ih =>
    intro store r hnd hr hlt
    rw [List.foldl_cons]
    rcases List.mem_cons.mp hr with rfl | hmem
    · have hx : r ∉ xs := (List.nodup_cons.mp hnd).1
      rw [normalize_foldl_getD_not_mem nns xs _ _ hx,
        normalize_step_getD_eq nns store r hlt]
    · have hne : x ≠ r := by
        rintro rfl
        exact (List.nodup_cons.mp hnd).1 hmem
      rw [ih (normalize_step nns store x) r (List.nodup_cons.mp hnd).2 hmem
        (by rw [normalize_step_length]; exact hlt),
        normalize_step_getD_ne nns store x r hne]

/-- C10: with tuple-form rules, the constructor's normalization writes
integer ids into the very `Transition` objects the caller's list references
(`transition_list[:]` only copies the reference list), so after construction
the caller's objects hold `stateId` values instead of their original tuples. -/
theorem C10_normalization_mutates_caller (nns : ℕ) (store : List Transition)
    (refs : List ℕ) (i : ℕ)
    (hnd : refs.Nodup)
    (hi : i < refs.length)
    (hlen : ∀ x ∈ refs, x < store.length)
    (htriples : ∀ x ∈ refs,
      (∃ a, (store.getD x default).from_state = TransState.triple a) ∧
        ∃ b, (store.getD x default).to_state = TransState.triple b) :
    ∃ a b,
      (store.getD (refs.getD i 0) default).from_state = TransState.triple a ∧
        (store.getD (refs.getD i 0) default).to_state = TransState.triple b ∧
        ((transition_list_to_ID nns store refs).getD (refs.getD i 0)
            default).from_state = TransState.stateId (link_state_dict nns a) ∧
        ((transition_list_to_ID nns store refs).getD (refs.getD i 0)
            default).to_state = TransState.stateId (link_state_dict nns b) := by
  have hmem : refs.getD i 0 ∈ refs := by
    rw [List.getD_eq_getElem?_getD, List.getElem?_eq_getElem hi]
    exact List.getElem_mem hi
  have h0mem : refs.getD 0 0 ∈ refs := by
    have h0 : 0 < refs.length := Nat.lt_of_le_of_lt (Nat.zero_le i) hi
    rw [List.getD_eq_getElem?_getD, List.getElem?_eq_getElem h0]
    exact List.getElem_mem h0
  obtain ⟨⟨a, ha⟩, ⟨b, hb⟩⟩ := htriples _ hmem
  obtain ⟨⟨a0, ha0⟩, _⟩ := htriples _ h0mem
  refine ⟨a, b, ha, hb, ?_, ?_⟩ <;>
    rw [transition_list_to_ID, ha0,
      normalize_foldl_getD nns refs store _ hnd hmem (hlen _ hmem)]
  · rw [show ({ store.getD (refs.getD i 0) default with
        from_state := trans_state_to_ID nns (store.getD (refs.getD i 0) default).from_state,
        to_state := trans_state_to_ID nns (store.getD (refs.getD i 0) default).to_state } :
          Transition).from_state =
        trans_state_to_ID nns (store.getD (refs.getD i 0) default).from_state from rfl,
      ha]
    rfl
  · rw [show ({ store.getD (refs.getD i 0) default with
        from_state := trans_state_to_ID nns (store.getD (refs.getD i 0) default).from_state,
        to_state := trans_state_to_ID nns (store.getD (refs.getD i 0) default).to_state } :
          Transition).to_state =
        trans_state_to_ID nns (store.getD (refs.getD i 0) default).to_state from rfl,
      hb]
    rfl

/-- Witness for C10: two tuple-form rules; after normalization the caller's
second object holds ids. -/
theorem C10_normalization_mutates_caller_witness :
    ∃ a b,
      (exTupleStore.getD (([0, 1] : List ℕ).getD 1 0) default).from_state =
          TransState.triple a ∧
        (exTupleStore.getD (([0, 1] : List ℕ).getD 1 0) default).to_state =
          TransState.triple b ∧
        ((transition_list_to_ID 2 exTupleStore [0, 1]).getD
            (([0, 1] : List ℕ).getD 1 0) default).from_state =
          TransState.stateId (link_state_dict 2 a) ∧
        ((transition_list_to_ID 2 exTupleStore [0, 1]).getD
            (([0, 1] : List ℕ).getD 1 0) default).to_state =
          TransState.stateId (link_state_dict 2 b) := by
  apply C10_normalization_mutates_caller 2 exTupleStore [0, 1] 1 (by decide)
    (by decide) (by decide)
  intro x hx
  rcases List.mem_cons.mp hx with rfl | hx
  · exact ⟨⟨(0, 1, 0), rfl⟩, ⟨(1, 1, 0), rfl⟩⟩
  rcases List.mem_cons.mp hx with rfl | hx
  · exact ⟨⟨(1, 0, 0), rfl⟩, ⟨(1, 1, 0), rfl⟩⟩
  · cases hx

/-! ## Frame lemmas: which fields each operation leaves untouched -/

lemma fupd_self {α : Type} (f : ℕ → α) (i : ℕ) (v : α) : fupd f i v i = v := by
  simp [fupd]

lemma fupd_ne {α : Type} (f : ℕ → α) (i j : ℕ) (v : α) (h : j ≠ i) :
    fupd f i v j = f j := by
  simp [fupd, h]

lemma foldl_preserves {α β : Type} {f : α → β → α} {P : α → Prop}
    (h : ∀ a b, P a → P (f a b)) :
    ∀ (l : List β) (a : α), P a → P (l.foldl f a) := by
  intro l
  induction l with
  | nil => exact fun a ha => ha
  | cons b bs ih => exact fun a ha => ih _ (h a b ha)

lemma update_node_states_fst_link_state (p : CAParams) (a b k : ℕ)
    (s : CAState) :
    (update_node_states p a b k s).1.link_state = s.link_state := rfl

lemma update_node_states_fst_next_update (p : CAParams) (a b k : ℕ)
    (s : CAState) :
    (update_node_states p a b k s).1.next_update = s.next_update := rfl

lemma update_node_states_fst_event_queue (p : CAParams) (a b k : ℕ)
    (s : CAState) :
    (update_node_states p a b k s).1.event_queue = s.event_queue := rfl

lemma update_node_states_fst_current_time (p : CAParams) (a b k : ℕ)
    (s : CAState) :
    (update_node_states p a b k s).1.current_time = s.current_time := rfl

lemma update_link_state_node_state (p : CAParams) (l nls : ℕ) (t : ℚ)
    (s : CAState) :
    (update_link_state p l nls t s).node_state = s.node_state := by
  simp only [update_link_state]
  split <;> try rfl
  all_goals split <;> rfl

lemma update_link_state_current_time (p : CAParams) (l nls : ℕ) (t : ℚ)
    (s : CAState) :
    (update_link_state p l nls t s).current_time = s.current_time := by
  simp only [update_link_state]
  split <;> try rfl
  all_goals split <;> rfl

lemma cascade_step_node_state (p : CAParams) (el : ℕ) (t : ℚ) (st : CAState)
    (x : ℤ) :
    (cascade_step p el t st x).node_state = st.node_state := by
  unfold cascade_step
  split
  · exact update_link_state_node_state p _ _ t st
  · rfl

lemma cascade_step_current_time (p : CAParams) (el : ℕ) (t : ℚ) (st : CAState)
    (x : ℤ) :
    (cascade_step p el t st x).current_time = st.current_time := by
  unfold cascade_step
  split
  · exact update_link_state_current_time p _ _ t st
  · rfl

lemma cascade_foldl_node_state (p : CAParams) (el : ℕ) (t : ℚ) :
    ∀ (xs : List ℤ) (st : CAState),
      (xs.foldl (cascade_step p el t) st).node_state = st.node_state := by
  intro xs
  induction xs with
  | nil => intro st; rfl
  | cons x xs ih =>
    intro st
    rw [List.foldl_cons, ih, cascade_step_node_state]

lemma cascade_foldl_current_time (p : CAParams) (el : ℕ) (t : ℚ) :
    ∀ (xs : List ℤ) (st : CAState),
      (xs.foldl (cascade_step p el t) st).current_time = st.current_time := by
  intro xs
  induction xs with
  | nil => intro st; rfl
  | cons x xs ih =>
    intro st
    rw [List.foldl_cons, ih, cascade_step_current_time]

lemma do_transition_current_time (p : CAParams) (e : Event) (t : ℚ)
    (s : CAState) :
    (do_transition p e t s).current_time = s.current_time := by
  unfold do_transition
  split
  · dsimp only
    split
    · rw [cascade_foldl_current_time]
      split
      · rw [cascade_foldl_current_time, update_link_state_current_time,
          update_node_states_fst_current_time]
      · rw [update_link_state_current_time, update_node_states_fst_current_time]
    · split
      · rw [cascade_foldl_current_time, update_link_state_current_time,
          update_node_states_fst_current_time]
      · rw [update_link_state_current_time, update_node_states_fst_current_time]
  · rfl

/-! ## C3: boundary (non-core) node states are never changed -/

lemma update_node_states_not_core (p : CAParams) (a b k : ℕ) (s : CAState)
    (j : ℕ) (hj : p.grid.node_status j ≠ CORE_NODE) :
    (update_node_states p a b k s).1.node_state j = s.node_state j := by
  unfold update_node_states
  dsimp only
  split
  · rename_i hb
    rw [fupd_ne]
    · split
      · rename_i ha
        rw [fupd_ne]
        intro he
        exact hj (he ▸ ha)
      · rfl
    · intro he
      exact hj (he ▸ hb)
  · split
    · rename_i ha
      rw [fupd_ne]
      intro he
      exact hj (he ▸ ha)
    · rfl

lemma do_transition_node_state_not_core (p : CAParams) (e : Event) (t : ℚ)
    (s : CAState) (j : ℕ) (hj : p.grid.node_status j ≠ CORE_NODE) :
    (do_transition p e t s).node_state j = s.node_state j := by
  unfold do_transition
  split
  · have huns := update_node_states_not_core p
      (p.grid.activelink_fromnode e.link) (p.grid.activelink_tonode e.link)
      e.xn_to s j hj
    dsimp only
    split
    · rw [cascade_foldl_node_state]
      split
      · rw [cascade_foldl_node_state, update_link_state_node_state, huns]
      · rw [update_link_state_node_state, huns]
    · split
      · rw [cascade_foldl_node_state, update_link_state_node_state, huns]
      · rw [update_link_state_node_state, huns]
  · rfl

lemma run_node_state_not_core (p : CAParams) (j : ℕ)
    (hj : p.grid.node_status j ≠ CORE_NODE) :
    ∀ (fuel : ℕ) (run_duration : ℚ) (s : CAState),
      ((run p fuel run_duration s).1).node_state j = s.node_state j := by
  intro fuel
  induction fuel with
  | zero => intro d s; rfl
  | succ n ih =>
    intro d s
    rw [run]
    split
    · rcases hq : popMin s.event_queue with _ | ⟨ev, rest⟩
      · rfl
      · dsimp only
        split
        · dsimp only
          rw [ih]
          exact do_transition_node_state_not_core p ev s.current_time _ j hj
        · dsimp only
          rw [ih]
          exact do_transition_node_state_not_core p ev s.current_time _ j hj
    · rfl

lemma push_transitions_step_node_state (p : CAParams) (st : CAState) (i : ℕ) :
    (push_transitions_step p st i).node_state = st.node_state := by
  unfold push_transitions_step
  split <;> rfl

lemma construct_node_state (p : CAParams) (initial_node_states : ℕ → ℕ) :
    (construct p initial_node_states).node_state = initial_node_states := by
  unfold construct push_transitions_to_event_queue
  have h : ∀ (xs : List ℕ) (st : CAState),
      (xs.foldl (push_transitions_step p) st).node_state = st.node_state := by
    intro xs
    induction xs with
    | nil => intro st; rfl
    | cons x xs ih =>
      intro st
      rw [List.foldl_cons, ih, push_transitions_step_node_state]
  rw [h]
  rfl

/-- C3: a node whose status is not `CORE_NODE` is never written by
`update_node_states` (whatever link fired), and hence still holds its initial
state after engine construction followed by any number of `run` loop
iterations. -/
theorem C3_boundary_nodes_frozen (p : CAParams) (j : ℕ)
    (hj : p.grid.node_status j ≠ CORE_NODE) :
    (∀ (fromnode tonode new_link_state : ℕ) (s : CAState),
      (update_node_states p fromnode tonode new_link_state s).1.node_state j =
        s.node_state j) ∧
      ∀ (initial_node_states : ℕ → ℕ) (fuel : ℕ) (run_duration : ℚ),
        ((run p fuel run_duration
            (construct p initial_node_states)).1).node_state j =
          initial_node_states j := by
  constructor
  · intro a b k s
    exact update_node_states_not_core p a b k s j hj
  · intro init fuel d
    rw [run_node_state_not_core p j hj fuel d, construct_node_state]

/-- Witness for C3: in `exPB` node 1 is non-core; it keeps its initial state
through an update and through a constructed run. -/
theorem C3_boundary_nodes_frozen_witness :
    (update_node_states exPB 0 1 3 exStaleS).1.node_state 1 =
        exStaleS.node_state 1 ∧
      ((run exPB 1 5 (construct exPB exInit)).1).node_state 1 = exInit 1 :=
  ⟨(C3_boundary_nodes_frozen exPB 1 (by decide)).1 0 1 3 exStaleS,
    (C3_boundary_nodes_frozen exPB 1 (by decide)).2 exInit 1 5⟩

/-! ## C5: the clock advances on every pop, stale or not -/

/-- C5 counterexample: `exStaleS` holds one event, `⟨5, 0, 3⟩`, which is stale
(`5 ≠ next_update 0 = 99`). One `run` iteration pops it, `do_transition`
discards it — yet `current_time` moves from `0` to `5`, because line 710 of
link_ca.py updates the clock unconditionally. This refutes the claim that a
stale pop leaves `current_time` unchanged. -/
theorem C5_counterexample :
    popMin exStaleS.event_queue = some (⟨5, 0, 3⟩, []) ∧
      (⟨5, 0, 3⟩ : Event).time ≠ exStaleS.next_update (⟨5, 0, 3⟩ : Event).link ∧
      exStaleS.current_time = 0 ∧
      (run exP 1 10 exStaleS).1.current_time = 5 := by
  refine ⟨by decide, by decide, by decide, ?_⟩
  norm_num [run, popMin, do_transition, exStaleS]

/-- C5 amended: in each `run` iteration the clock is advanced to the popped
event's scheduled time whether or not the event is applied; a stale pop also
moves `current_time` to the stale event's time. -/
theorem C5_clock_advances_to_every_pop (p : CAParams) (run_duration : ℚ)
    (s : CAState) (ev : Event) (rest : List Event)
    (hd : s.current_time < run_duration)
    (hq : popMin s.event_queue = some (ev, rest)) :
    (run p 1 run_duration s).1.current_time = ev.time := by
  have hne : s.event_queue ≠ [] := by
    intro he
    rw [he] at hq
    simp [popMin] at hq
  rw [run, if_pos ⟨hd, hne⟩, hq]
  dsimp only
  split <;> rfl

/-- Witness for C5's amended statement: the stale pop of `exStaleS`. -/
theorem C5_clock_advances_to_every_pop_witness :
    (run exP 1 10 exStaleS).1.current_time = (⟨5, 0, 3⟩ : Event).time :=
  C5_clock_advances_to_every_pop exP 10 exStaleS ⟨5, 0, 3⟩ []
    (by norm_num [exStaleS]) (by decide)

/-! ## Event-queue lemmas: `popMin` pops a minimal event -/

lemma popMin_eq_none {q : List Event} (h : popMin q = none) : q = [] := by
  cases q with
  | nil => rfl
  | cons e rest =>
    unfold popMin at h
    cases hr : popMin rest with
    | none => rw [hr] at h; simp at h
    | some m =>
      obtain ⟨m, rest'⟩ := m
      rw [hr] at h
      dsimp only at h
      split at h <;> simp at h

lemma popMin_mem {q : List Event} {e : Event} {rest : List Event}
    (h : popMin q = some (e, rest)) : e ∈ q := by
  induction q generalizing e rest with
  | nil => simp [popMin] at h
  | cons a l ih =>
    unfold popMin at h
    cases hr : popMin l with
    | none =>
      rw [hr] at h
      simp only [Option.some.injEq, Prod.mk.injEq] at h
      exact h.1 ▸ List.mem_cons_self a l
    | some m =>
      obtain ⟨m, rest'⟩ := m
      rw [hr] at h
      dsimp only at h
      split at h
      · simp only [Option.some.injEq, Prod.mk.injEq] at h
        exact h.1 ▸ List.mem_cons_self a l
      · simp only [Option.some.injEq, Prod.mk.injEq] at h
        exact List.mem_cons_of_mem a (h.1 ▸ ih hr)

lemma popMin_cover {q : List Event} {e : Event} {rest : List Event}
    (h : popMin q = some (e, rest)) : ∀ x ∈ q, x = e ∨ x ∈ rest := by
  induction q generalizing e rest with
  | nil => simp [popMin] at h
  | cons a l ih =>
    unfold popMin at h
    cases hr : popMin l with
    | none =>
      rw [hr] at h
      simp only [Option.some.injEq, Prod.mk.injEq] at h
      have hl : l = [] := popMin_eq_none hr
      intro x hx
      rcases List.mem_cons.mp hx with rfl | hx
      · exact Or.inl h.1
      · rw [hl] at hx
        cases hx
    | some m =>
      obtain ⟨m, rest'⟩ := m
      rw [hr] at h
      dsimp only at h
      split at h
      · simp only [Option.some.injEq, Prod.mk.injEq] at h
        obtain ⟨he, hrest⟩ := h
        intro x hx
        rcases List.mem_cons.mp hx with rfl | hx
        · exact Or.inl he
        · exact Or.inr (hrest ▸ hx)
      · simp only [Option.some.injEq, Prod.mk.injEq] at h
        obtain ⟨he, hrest⟩ := h
        intro x hx
        rcases List.mem_cons.mp hx with rfl | hx
        · exact Or.inr (hrest ▸ List.mem_cons_self x rest')
        · rcases ih hr x hx with h1 | h1
          · exact Or.inl (he ▸ h1)
          · exact Or.inr (hrest ▸ List.mem_cons_of_mem a h1)

lemma popMin_min {q : List Event} {e : Event} {rest : List Event}
    (h : popMin q = some (e, rest)) : ∀ x ∈ rest, e.time ≤ x.time := by
  induction q generalizing e rest with
  | nil => simp [popMin] at h
  | cons a l ih =>
    unfold popMin at h
    cases hr : popMin l with
    | none =>
      rw [hr] at h
      simp only [Option.some.injEq, Prod.mk.injEq] at h
      intro x hx
      rw [← h.2] at hx
      cases hx
    | some m =>
      obtain ⟨m, rest'⟩ := m
      rw [hr] at h
      dsimp only at h
      split at h
      · rename_i hle
        simp only [Option.some.injEq, Prod.mk.injEq] at h
        obtain ⟨he, hrest⟩ := h
        intro x hx
        rw [← hrest] at hx
        rw [← he]
        rcases popMin_cover hr x hx with rfl | h1
        · exact hle
        · exact le_trans hle (ih hr x h1)
      · rename_i hgt
        simp only [Option.some.injEq, Prod.mk.injEq] at h
        obtain ⟨he, hrest⟩ := h
        intro x hx
        rw [← hrest] at hx
        rw [← he]
        rcases List.mem_cons.mp hx with rfl | h1
        · exact le_of_lt (lt_of_not_le hgt)
        · exact ih hr x h1

lemma popMin_rest_mem {q : List Event} {e : Event} {rest : List Event}
    (h : popMin q = some (e, rest)) : ∀ x ∈ rest, x ∈ q := by
  induction q generalizing e rest with
  | nil => simp [popMin] at h
  | cons a l ih =>
    unfold popMin at h
    cases hr : popMin l with
    | none =>
      rw [hr] at h
      simp only [Option.some.injEq, Prod.mk.injEq] at h
      intro x hx
      rw [← h.2] at hx
      cases hx
    | some m =>
      obtain ⟨m, rest'⟩ := m
      rw [hr] at h
      dsimp only at h
      split at h
      · simp only [Option.some.injEq, Prod.mk.injEq] at h
        intro x hx
        rw [← h.2] at hx
        exact List.mem_cons_of_mem a hx
      · simp only [Option.some.injEq, Prod.mk.injEq] at h
        intro x hx
        rw [← h.2] at hx
        rcases List.mem_cons.mp hx with rfl | h1
        · exact List.mem_cons_self x l
        · exact List.mem_cons_of_mem a (ih hr x h1)

/-! ## C6: events are applied in non-decreasing time order -/

lemma foldl_loop_fst_nonneg (p : CAParams) (st c : ℕ)
    (hnn : samplesNonneg p) :
    ∀ (xs : List ℕ) (acc : ℚ × Option ℕ), 0 ≤ acc.1 →
      0 ≤ (xs.foldl (get_next_event_loop p st c) acc).1 := by
  intro xs
  induction xs with
  | nil => exact fun acc h => h
  | cons x xs ih =>
    intro acc h
    rw [List.foldl_cons]
    apply ih
    unfold get_next_event_loop
    dsimp only
    split
    · exact hnn st x (c + x)
    · exact h

lemma get_next_event_time_ge (p : CAParams) (hnn : samplesNonneg p)
    (link st : ℕ) (t : ℚ) (c : ℕ) :
    t ≤ (get_next_event p link st t c).1.time := by
  unfold get_next_event
  split
  · dsimp only
    have := hnn st 0 c
    linarith
  · dsimp only
    have h0 : (0 : ℚ) ≤ NEVER := by norm_num [NEVER]
    have := foldl_loop_fst_nonneg p st c hnn (List.range (nXn p st))
      (NEVER, none) h0
    linarith

lemma update_link_state_queue_ge (p : CAParams) (hnn : samplesNonneg p)
    (l nls : ℕ) (t b : ℚ) (s : CAState) (hbt : b ≤ t)
    (hq : ∀ e ∈ s.event_queue, b ≤ e.time) :
    ∀ e ∈ (update_link_state p l nls t s).event_queue, b ≤ e.time := by
  intro e he
  simp only [update_link_state] at he
  split at he
  · split at he
    · rcases List.mem_append.mp he with h1 | h1
      · exact hq e h1
      · rw [List.mem_singleton.mp h1]
        exact le_trans hbt (get_next_event_time_ge p hnn l _ t s.ctr)
    · exact hq e he
  · split at he
    · rcases List.mem_append.mp he with h1 | h1
      · exact hq e h1
      · rw [List.mem_singleton.mp h1]
        exact le_trans hbt (get_next_event_time_ge p hnn l _ t s.ctr)
    · exact hq e he

lemma cascade_step_queue_ge (p : CAParams) (hnn : samplesNonneg p)
    (el : ℕ) (t b : ℚ) (st : CAState) (x : ℤ) (hbt : b ≤ t)
    (hq : ∀ e ∈ st.event_queue, b ≤ e.time) :
    ∀ e ∈ (cascade_step p el t st x).event_queue, b ≤ e.time := by
  unfold cascade_step
  split
  · exact update_link_state_queue_ge p hnn _ _ t b st hbt hq
  · exact hq

lemma cascade_foldl_queue_ge (p : CAParams) (hnn : samplesNonneg p)
    (el : ℕ) (t b : ℚ) (hbt : b ≤ t) (xs : List ℤ) (st : CAState)
    (hq : ∀ e ∈ st.event_queue, b ≤ e.time) :
    ∀ e ∈ (xs.foldl (cascade_step p el t) st).event_queue, b ≤ e.time :=
  foldl_preserves
    (fun st' x h => cascade_step_queue_ge p hnn el t b st' x hbt h) xs st hq

lemma do_transition_queue_ge (p : CAParams) (hnn : samplesNonneg p)
    (ev : Event) (t : ℚ) (s : CAState)
    (hq : ∀ e ∈ s.event_queue, ev.time ≤ e.time) :
    ∀ e ∈ (do_transition p ev t s).event_queue, ev.time ≤ e.time := by
  unfold do_transition
  split
  · dsimp only
    have hq1 : ∀ e ∈ (update_node_states p (p.grid.activelink_fromnode ev.link)
        (p.grid.activelink_tonode ev.link) ev.xn_to s).1.event_queue,
        ev.time ≤ e.time := by
      rw [update_node_states_fst_event_queue]
      exact hq
    have hq2 := update_link_state_queue_ge p hnn ev.link ev.xn_to ev.time
      ev.time _ (le_refl _) hq1
    split
    · apply cascade_foldl_queue_ge p hnn ev.link ev.time ev.time (le_refl _)
      split
      · exact cascade_foldl_queue_ge p hnn ev.link ev.time ev.time (le_refl _)
          _ _ hq2
      · exact hq2
    · split
      · exact cascade_foldl_queue_ge p hnn ev.link ev.time ev.time (le_refl _)
          _ _ hq2
      · exact hq2
  · exact hq

/-- C6: across any execution of `run` from a state whose queued events are
all scheduled no earlier than the clock (true of a freshly constructed
engine and preserved by every iteration), `current_time` is monotonically
non-decreasing and the applied events' scheduled times form a non-decreasing
sequence starting at the initial clock: every newly pushed event is no
earlier than the event being processed, so pops arrive in time order. -/
theorem C6_event_times_monotone (p : CAParams) (hnn : samplesNonneg p) :
    ∀ (fuel : ℕ) (run_duration : ℚ) (s : CAState), queueTimesGE s →
      s.current_time ≤ (run p fuel run_duration s).1.current_time ∧
        List.Sorted (fun a b => a ≤ b)
          (s.current_time :: (run p fuel run_duration s).2) := by
  intro fuel
  induction fuel with
  | zero => exact fun d s _ => ⟨le_refl _, by simp [run]⟩
  | succ n ih =>
    intro d s hq
    rw [run]
    by_cases hcond : s.current_time < d ∧ s.event_queue ≠ []
    · rw [if_pos hcond]
      rcases hpop : popMin s.event_queue with _ | ⟨ev, rest⟩
      · exact ⟨le_refl _, by simp⟩
      · dsimp only
        have hev : s.current_time ≤ ev.time := hq ev (popMin_mem hpop)
        have hrest : ∀ e ∈ rest, ev.time ≤ e.time := popMin_min hpop
        have hq2 : queueTimesGE
            { do_transition p ev s.current_time { s with event_queue := rest }
              with current_time := ev.time } := by
          intro e he
          exact do_transition_queue_ge p hnn ev s.current_time
            { s with event_queue := rest } hrest e he
        obtain ⟨h1, h2⟩ := ih d _ hq2
        have hct : ({ do_transition p ev s.current_time
            { s with event_queue := rest } with
              current_time := ev.time } : CAState).current_time = ev.time := rfl
        constructor
        · split <;>
            exact le_trans hev (le_trans (le_of_eq hct.symm) h1)
        · rw [hct] at h2
          have hsc := (List.sorted_cons.mp h2).1
          split
          · exact List.sorted_cons.mpr
              ⟨fun b hb => by
                rcases List.mem_cons.mp hb with rfl | hb
                · exact hev
                · exact le_trans hev (hsc b hb), h2⟩
          · exact List.sorted_cons.mpr
              ⟨fun b hb => le_trans hev (hsc b hb),
                (List.sorted_cons.mp h2).2⟩
    · rw [if_neg hcond]
      exact ⟨le_refl _, by simp⟩

/-- Witness for C6: a run from `exStaleS` (clock `0`, one event at time `5`). -/
theorem C6_event_times_monotone_witness :
    exStaleS.current_time ≤ (run exP 2 10 exStaleS).1.current_time ∧
      List.Sorted (fun a b => a ≤ b)
        (exStaleS.current_time :: (run exP 2 10 exStaleS).2) :=
  C6_event_times_monotone exP
    (by
      intro st i k
      norm_num [sample, numpy_random_exponential, exP])
    2 10 exStaleS (by decide)

/-! ## C1: link-state consistency (spec I3/P1)

Corollaries of the codec lemmas. -/

lemma num_link_states_eq (n : ℕ) : num_link_states n = 2 * (n * n) := by
  unfold num_link_states
  ring

lemma active_link_orientation_lt_two (g : ModelGrid) (l : ℕ) :
    active_link_orientation g l < 2 := by
  unfold active_link_orientation
  split <;> omega

lemma link_state_dict_lt {n f t o : ℕ} (hf : f < n) (ht : t < n) (ho : o < 2) :
    link_state_dict n (f, t, o) < num_link_states n := by
  rw [link_state_dict_encode hf ht ho, num_link_states_eq]
  exact encode_lt hf ht ho

lemma link_state_dict_orient {n f t o : ℕ} (hf : f < n) (ht : t < n)
    (ho : o < 2) :
    link_state_dict n (f, t, o) / (n * n) = o := by
  rw [link_state_dict_encode hf ht ho]
  exact (encode_components hf ht ho).2.2

lemma cell_pair_at_lt {n k : ℕ} (hk : k < num_link_states n) :
    (cell_pair_at n k).1 < n ∧ (cell_pair_at n k).2.1 < n := by
  rw [num_link_states_eq] at hk
  obtain ⟨hf, ht, _, _⟩ := decode_components hk
  rw [cell_pair_at_eq hk]
  exact ⟨hf, ht⟩

lemma dict_cell_pair_at {n k : ℕ} (hk : k < num_link_states n) :
    link_state_dict n
      ((cell_pair_at n k).1, (cell_pair_at n k).2.1, k / (n * n)) = k := by
  rw [num_link_states_eq] at hk
  obtain ⟨hf, ht, ho, hrec⟩ := decode_components hk
  rw [cell_pair_at_eq hk]
  dsimp only
  rw [link_state_dict_encode hf ht ho, hrec]

/-! `update_link_state`: the written link state and its effect on `okAt`. -/

lemma update_link_state_link_state_ne (p : CAParams) (l nls : ℕ) (t : ℚ)
    (s : CAState) (l' : ℕ) (h : l' ≠ l) :
    (update_link_state p l nls t s).link_state l' = s.link_state l' := by
  simp only [update_link_state]
  split <;> split <;> exact fupd_ne _ _ _ _ h

lemma update_link_state_okAt_ne (p : CAParams) (l nls : ℕ) (t : ℚ)
    (s : CAState) (l' : ℕ) (h : l' ≠ l) (hok : okAt p s l') :
    okAt p (update_link_state p l nls t s) l' := by
  unfold okAt at hok ⊢
  rw [update_link_state_node_state,
    update_link_state_link_state_ne p l nls t s l' h]
  exact hok

lemma update_link_state_link_state_self (p : CAParams) (l nls : ℕ) (t : ℚ)
    (s : CAState)
    (hok : nls = link_state_dict p.num_node_states
      (s.node_state (p.grid.activelink_fromnode l),
        s.node_state (p.grid.activelink_tonode l),
        active_link_orientation p.grid l)) :
    (update_link_state p l nls t s).link_state l = nls := by
  simp only [update_link_state]
  split <;> split <;> dsimp only <;> rw [fupd_self]
  all_goals first
  | rfl
  | exact hok.symm

/-- If the planned state agrees with the recomputation from the current node
states, the link carries it afterwards and is consistent (in the boundary
branch the source writes exactly that recomputation). -/
lemma update_link_state_okAt_self (p : CAParams) (l nls : ℕ) (t : ℚ)
    (s : CAState)
    (hok : nls = link_state_dict p.num_node_states
      (s.node_state (p.grid.activelink_fromnode l),
        s.node_state (p.grid.activelink_tonode l),
        active_link_orientation p.grid l)) :
    okAt p (update_link_state p l nls t s) l := by
  unfold okAt
  rw [update_link_state_node_state,
    update_link_state_link_state_self p l nls t s hok]
  exact hok

/-- In the boundary branch the written state is the recomputation, so the
link is consistent afterwards whatever state was planned. -/
lemma update_link_state_okAt_boundary (p : CAParams) (l nls : ℕ) (t : ℚ)
    (s : CAState)
    (hbd : p.grid.node_status (p.grid.activelink_fromnode l) ≠ CORE_NODE ∨
      p.grid.node_status (p.grid.activelink_tonode l) ≠ CORE_NODE) :
    okAt p (update_link_state p l nls t s) l := by
  unfold okAt
  rw [update_link_state_node_state]
  simp only [update_link_state, if_pos hbd]
  split <;> (dsimp only; exact fupd_self _ _ _)

/-! `get_next_event`: the link and target of the produced event. -/

lemma get_next_event_link (p : CAParams) (link st : ℕ) (t : ℚ) (c : ℕ) :
    (get_next_event p link st t c).1.link = link := by
  unfold get_next_event
  split <;> rfl

lemma foldl_loop_snd_isSome (p : CAParams) (st c : ℕ) :
    ∀ (xs : List ℕ) (acc : ℚ × Option ℕ), acc.2.isSome = true →
      ((xs.foldl (get_next_event_loop p st c) acc).2).isSome = true := by
  intro xs
  induction xs with
  | nil => exact fun acc h => h
  | cons x xs ih =>
    intro acc h
    rw [List.foldl_cons]
    apply ih
    unfold get_next_event_loop
    dsimp only
    split
    · rfl
    · exact h

lemma foldl_loop_snd_mem (p : CAParams) (st c bound : ℕ) :
    ∀ (xs : List ℕ) (acc : ℚ × Option ℕ),
      (∀ v, acc.2 = some v → ∃ i, i < bound ∧ v = xnTo p st i) →
      (∀ i ∈ xs, i < bound) →
      ∀ v, (xs.foldl (get_next_event_loop p st c) acc).2 = some v →
        ∃ i, i < bound ∧ v = xnTo p st i := by
  intro xs
  induction xs with
  | nil => exact fun acc hacc _ => hacc
  | cons x xs ih =>
    intro acc hacc hxs
    rw [List.foldl_cons]
    apply ih
    · intro w hw
      unfold get_next_event_loop at hw
      dsimp only at hw
      split at hw
      · exact ⟨x, hxs x (List.mem_cons_self x xs), (Option.some.inj hw).symm⟩
      · exact hacc w hw
    · intro i hi
      exact hxs i (List.mem_cons_of_mem x hi)

lemma get_next_event_xn (p : CAParams) (hb : samplesBounded p)
    (link st : ℕ) (t : ℚ) (c : ℕ) (h : 0 < nXn p st) :
    ∃ i, i < nXn p st ∧
      (get_next_event p link st t c).1.xn_to = xnTo p st i := by
  unfold get_next_event
  split
  · exact ⟨0, h, rfl⟩
  · dsimp only
    obtain ⟨m, hm⟩ : ∃ m, nXn p st = m + 1 := ⟨nXn p st - 1, by omega⟩
    rw [hm, List.range_succ_eq_map, List.foldl_cons]
    have hstep : get_next_event_loop p st c (NEVER, none) 0 =
        (sample p st 0 (c + 0), some (xnTo p st 0)) := by
      unfold get_next_event_loop
      dsimp only
      rw [if_pos (hb st 0 (c + 0))]
    rw [hstep]
    have hsome := foldl_loop_snd_isSome p st c ((List.range m).map Nat.succ)
      (sample p st 0 (c + 0), some (xnTo p st 0)) rfl
    obtain ⟨v, hv⟩ := Option.isSome_iff_exists.mp hsome
    obtain ⟨i, hi, hvi⟩ := foldl_loop_snd_mem p st c (nXn p st)
      ((List.range m).map Nat.succ)
      (sample p st 0 (c + 0), some (xnTo p st 0))
      (fun w hw => ⟨0, h, (Option.some.inj hw).symm⟩)
      (fun i hi => by
        obtain ⟨j, hj, rfl⟩ := List.mem_map.mp hi
        have := List.mem_range.mp hj
        omega)
      v hv
    refine ⟨i, by omega, ?_⟩
    rw [hv]
    simpa using hvi

/-- A pushed event: its link is the rescheduled link and its target is an
in-range link state of the link's orientation, provided the current state is. -/
lemma pushed_event_orient_ok (p : CAParams) (hxn : xnPreservesOrientation p)
    (hb : samplesBounded p) (l st2 : ℕ) (t : ℚ) (c : ℕ)
    (hpos : 0 < nXn p st2)
    (hst2 : st2 < num_link_states p.num_node_states ∧
      st2 / (p.num_node_states * p.num_node_states) =
        active_link_orientation p.grid l) :
    (get_next_event p l st2 t c).1.xn_to < num_link_states p.num_node_states ∧
      (get_next_event p l st2 t c).1.xn_to /
          (p.num_node_states * p.num_node_states) =
        active_link_orientation p.grid ((get_next_event p l st2 t c).1.link) := by
  obtain ⟨i, hi, hxnto⟩ := get_next_event_xn p hb l st2 t c hpos
  rw [get_next_event_link, hxnto]
  obtain ⟨h1, h2⟩ := hxn st2 hst2.1 i hi
  exact ⟨h1, h2.trans hst2.2⟩

lemma update_link_state_queueOrientOk (p : CAParams)
    (hxn : xnPreservesOrientation p) (hb : samplesBounded p)
    (l nls : ℕ) (t : ℚ) (s : CAState)
    (hq : queueOrientOk p s) (hns : nodeStatesOk p s)
    (hnls : nls < num_link_states p.num_node_states ∧
      nls / (p.num_node_states * p.num_node_states) =
        active_link_orientation p.grid l) :
    queueOrientOk p (update_link_state p l nls t s) := by
  intro e he
  simp only [update_link_state] at he
  split at he
  · split at he
    · rename_i hpos
      dsimp only at he
      rcases List.mem_append.mp he with h1 | h1
      · exact hq e h1
      · rw [List.mem_singleton.mp h1]
        exact pushed_event_orient_ok p hxn hb l _ t s.ctr hpos
          ⟨link_state_dict_lt (hns _) (hns _)
              (active_link_orientation_lt_two _ _),
            link_state_dict_orient (hns _) (hns _)
              (active_link_orientation_lt_two _ _)⟩
    · exact hq e he
  · split at he
    · rename_i hpos
      dsimp only at he
      rcases List.mem_append.mp he with h1 | h1
      · exact hq e h1
      · rw [List.mem_singleton.mp h1]
        exact pushed_event_orient_ok p hxn hb l nls t s.ctr hpos hnls
    · exact hq e he

/-! `update_node_states`: write characterization. -/

lemma update_node_states_node_state_ne (p : CAParams) (a b k : ℕ)
    (s : CAState) (j : ℕ) (hja : j ≠ a) (hjb : j ≠ b) :
    (update_node_states p a b k s).1.node_state j = s.node_state j := by
  unfold update_node_states
  dsimp only
  split
  · rw [fupd_ne _ _ _ _ hjb]
    split
    · exact fupd_ne _ _ _ _ hja
    · rfl
  · split
    · exact fupd_ne _ _ _ _ hja
    · rfl

lemma update_node_states_changed (p : CAParams) (a b k : ℕ) (s : CAState)
    (j : ℕ)
    (hch : (update_node_states p a b k s).1.node_state j ≠ s.node_state j) :
    (j = a ∧ (update_node_states p a b k s).2.1 = true) ∨
      (j = b ∧ (update_node_states p a b k s).2.2 = true) := by
  by_cases hja : j = a
  · subst hja
    exact Or.inl ⟨rfl, decide_eq_true hch⟩
  · by_cases hjb : j = b
    · subst hjb
      exact Or.inr ⟨rfl, decide_eq_true hch⟩
    · exact absurd (update_node_states_node_state_ne p a b k s j hja hjb) hch

lemma update_node_states_not_changed_from (p : CAParams) (a b k : ℕ)
    (s : CAState) (h : (update_node_states p a b k s).2.1 = false) :
    (update_node_states p a b k s).1.node_state a = s.node_state a :=
  not_not.mp (of_decide_eq_false h)

lemma update_node_states_not_changed_to (p : CAParams) (a b k : ℕ)
    (s : CAState) (h : (update_node_states p a b k s).2.2 = false) :
    (update_node_states p a b k s).1.node_state b = s.node_state b :=
  not_not.mp (of_decide_eq_false h)

lemma update_node_states_core_writes (p : CAParams) (a b k : ℕ) (s : CAState)
    (hab : a ≠ b)
    (hca : p.grid.node_status a = CORE_NODE)
    (hcb : p.grid.node_status b = CORE_NODE) :
    (update_node_states p a b k s).1.node_state a =
        (cell_pair_at p.num_node_states k).1 ∧
      (update_node_states p a b k s).1.node_state b =
        (cell_pair_at p.num_node_states k).2.1 := by
  unfold update_node_states
  dsimp only
  rw [if_pos hcb, if_pos hca]
  constructor
  · rw [fupd_ne _ _ _ _ hab, fupd_self]
  · rw [fupd_self]

lemma update_node_states_values (p : CAParams) (a b k : ℕ) (s : CAState)
    (j : ℕ) :
    (update_node_states p a b k s).1.node_state j = s.node_state j ∨
      (update_node_states p a b k s).1.node_state j =
        (cell_pair_at p.num_node_states k).1 ∨
      (update_node_states p a b k s).1.node_state j =
        (cell_pair_at p.num_node_states k).2.1 := by
  unfold update_node_states
  dsimp only
  split
  · by_cases hjb : j = b
    · subst hjb
      rw [fupd_self]
      exact Or.inr (Or.inr rfl)
    · rw [fupd_ne _ _ _ _ hjb]
      split
      · by_cases hja : j = a
        · subst hja
          rw [fupd_self]
          exact Or.inr (Or.inl rfl)
        · rw [fupd_ne _ _ _ _ hja]
          exact Or.inl rfl
      · exact Or.inl rfl
  · split
    · by_cases hja : j = a
      · subst hja
        rw [fupd_self]
        exact Or.inr (Or.inl rfl)
      · rw [fupd_ne _ _ _ _ hja]
        exact Or.inl rfl
    · exact Or.inl rfl

lemma update_node_states_nodeStatesOk (p : CAParams) (a b k : ℕ)
    (s : CAState) (hns : nodeStatesOk p s)
    (hk : k < num_link_states p.num_node_states) :
    nodeStatesOk p (update_node_states p a b k s).1 := by
  obtain ⟨h1, h2⟩ := cell_pair_at_lt (n := p.num_node_states) hk
  intro j
  rcases update_node_states_values p a b k s j with h | h | h <;> rw [h]
  · exact hns j
  · exact h1
  · exact h2

/-! Cascade steps: they keep node states, preserve and repair consistency,
and keep the queue invariant. -/

lemma update_link_state_nodeStatesOk (p : CAParams) (l nls : ℕ) (t : ℚ)
    (s : CAState) (hns : nodeStatesOk p s) :
    nodeStatesOk p (update_link_state p l nls t s) := by
  intro j
  rw [update_link_state_node_state]
  exact hns j

lemma cascade_step_nodeStatesOk (p : CAParams) (el : ℕ) (t : ℚ)
    (st : CAState) (x : ℤ) (hns : nodeStatesOk p st) :
    nodeStatesOk p (cascade_step p el t st x) := by
  intro j
  rw [cascade_step_node_state]
  exact hns j

lemma cascade_step_queueOrientOk (p : CAParams)
    (hxn : xnPreservesOrientation p) (hb : samplesBounded p)
    (el : ℕ) (t : ℚ) (st : CAState) (x : ℤ)
    (hns : nodeStatesOk p st) (hq : queueOrientOk p st) :
    queueOrientOk p (cascade_step p el t st x) := by
  unfold cascade_step
  split
  · exact update_link_state_queueOrientOk p hxn hb _ _ t st hq hns
      ⟨link_state_dict_lt (hns _) (hns _) (active_link_orientation_lt_two _ _),
        link_state_dict_orient (hns _) (hns _)
          (active_link_orientation_lt_two _ _)⟩
  · exact hq

lemma cascade_step_okAt_preserved (p : CAParams) (el : ℕ) (t : ℚ)
    (st : CAState) (x : ℤ) (l : ℕ) (hok : okAt p st l) :
    okAt p (cascade_step p el t st x) l := by
  unfold cascade_step
  split
  · by_cases hl : l = x.toNat
    · subst hl
      exact update_link_state_okAt_self p _ _ t st rfl
    · exact update_link_state_okAt_ne p _ _ t st l hl hok
  · exact hok

lemma cascade_step_okAt_repair (p : CAParams) (el : ℕ) (t : ℚ)
    (st : CAState) (x : ℤ) (hx1 : x ≠ -1) (hx2 : x ≠ (el : ℤ)) :
    okAt p (cascade_step p el t st x) x.toNat := by
  unfold cascade_step
  rw [if_pos ⟨hx1, hx2⟩]
  exact update_link_state_okAt_self p _ _ t st rfl

lemma cascade_foldl_nodeStatesOk (p : CAParams) (el : ℕ) (t : ℚ)
    (xs : List ℤ) (st : CAState) (hns : nodeStatesOk p st) :
    nodeStatesOk p (xs.foldl (cascade_step p el t) st) :=
  foldl_preserves (fun a b h => cascade_step_nodeStatesOk p el t a b h) xs st hns

lemma cascade_foldl_queueOrientOk (p : CAParams)
    (hxn : xnPreservesOrientation p) (hb : samplesBounded p)
    (el : ℕ) (t : ℚ) (xs : List ℤ) (st : CAState)
    (hns : nodeStatesOk p st) (hq : queueOrientOk p st) :
    queueOrientOk p (xs.foldl (cascade_step p el t) st) := by
  have := foldl_preserves
    (P := fun st' => nodeStatesOk p st' ∧ queueOrientOk p st')
    (f := cascade_step p el t)
    (fun a b h => ⟨cascade_step_nodeStatesOk p el t a b h.1,
      cascade_step_queueOrientOk p hxn hb el t a b h.1 h.2⟩)
    xs st ⟨hns, hq⟩
  exact this.2

lemma cascade_foldl_okAt_preserved (p : CAParams) (el : ℕ) (t : ℚ) (l : ℕ)
    (xs : List ℤ) (st : CAState) (hok : okAt p st l) :
    okAt p (xs.foldl (cascade_step p el t) st) l :=
  foldl_preserves (fun a b h => cascade_step_okAt_preserved p el t a b l h)
    xs st hok

lemma cascade_foldl_okAt_repair (p : CAParams) (el : ℕ) (t : ℚ) :
    ∀ (xs : List ℤ) (st : CAState) (x : ℤ), x ∈ xs → x ≠ -1 →
      x ≠ (el : ℤ) →
      okAt p (xs.foldl (cascade_step p el t) st) x.toNat := by
  intro xs
  induction xs with
  | nil => intro st x hx; cases hx
  | cons y ys ih =>
    intro st x hx hx1 hx2
    rw [List.foldl_cons]
    rcases List.mem_cons.mp hx with rfl | hmem
    · exact cascade_foldl_okAt_preserved p el t x.toNat ys _
        (cascade_step_okAt_repair p el t st x hx1 hx2)
    · exact ih _ x hmem hx1 hx2

lemma queueOrientOk_of_update_node_states (p : CAParams) (a b k : ℕ)
    (s : CAState) (hq : queueOrientOk p s) :
    queueOrientOk p (update_node_states p a b k s).1 := by
  intro e he
  rw [update_node_states_fst_event_queue] at he
  exact hq e he

/-- The heart of the invariant: applying one (non-stale) event preserves the
engine invariant, provided the event's target state is in range and matches
its link's orientation. -/
lemma do_transition_engineInv (p : CAParams)
    (hxn : xnPreservesOrientation p) (hb : samplesBounded p)
    (hgc : gridContract p) (ev : Event) (t : ℚ) (s : CAState)
    (hinv : engineInv p s)
    (hev : ev.xn_to < num_link_states p.num_node_states ∧
      ev.xn_to / (p.num_node_states * p.num_node_states) =
        active_link_orientation p.grid ev.link) :
    engineInv p (do_transition p ev t s) := by
  obtain ⟨hlc, hns, hqo⟩ := hinv
  unfold do_transition
  split
  case isFalse _ => exact ⟨hlc, hns, hqo⟩
  case isTrue heq =>
  dsimp only
  set a := p.grid.activelink_fromnode ev.link with ha
  set bn := p.grid.activelink_tonode ev.link with hbn
  set r := update_node_states p a bn ev.xn_to s with hr
  set s2 := update_link_state p ev.link ev.xn_to ev.time r.1 with hs2
  set s3 := if r.2.1 = true then
      (p.grid.node_active_links a).foldl (cascade_step p ev.link ev.time) s2
    else s2 with hs3
  have hns1 : nodeStatesOk p r.1 := by
    rw [hr]
    exact update_node_states_nodeStatesOk p a bn ev.xn_to s hns hev.1
  have hq1 : queueOrientOk p r.1 := by
    rw [hr]
    exact queueOrientOk_of_update_node_states p a bn ev.xn_to s hqo
  have hns2 : nodeStatesOk p s2 := by
    rw [hs2]
    exact update_link_state_nodeStatesOk p ev.link ev.xn_to ev.time r.1 hns1
  have hq2 : queueOrientOk p s2 := by
    rw [hs2]
    exact update_link_state_queueOrientOk p hxn hb ev.link ev.xn_to ev.time
      r.1 hq1 hns1 hev
  have hok_event : ev.link < p.grid.number_of_active_links →
      okAt p s2 ev.link := by
    intro hevL
    by_cases hcore : p.grid.node_status a ≠ CORE_NODE ∨
        p.grid.node_status bn ≠ CORE_NODE
    · rw [hs2]
      apply update_link_state_okAt_boundary
      rw [ha, hbn] at hcore
      exact hcore
    · push_neg at hcore
      obtain ⟨hca, hcb⟩ := hcore
      have hab : a ≠ bn := by
        rw [ha, hbn]
        exact (hgc ev.link hevL).1
      have hwr := update_node_states_core_writes p a bn ev.xn_to s hab hca hcb
      rw [hs2]
      apply update_link_state_okAt_self
      rw [← ha, ← hbn, hr, hwr.1, hwr.2, ← hev.2]
      exact (dict_cell_pair_at hev.1).symm
  have hns3 : nodeStatesOk p s3 := by
    rw [hs3]
    split
    · exact cascade_foldl_nodeStatesOk p ev.link ev.time _ s2 hns2
    · exact hns2
  have hq3 : queueOrientOk p s3 := by
    rw [hs3]
    split
    · exact cascade_foldl_queueOrientOk p hxn hb ev.link ev.time _ s2 hns2 hq2
    · exact hq2
  have hok3_pres : ∀ l, okAt p s2 l → okAt p s3 l := by
    intro l h
    rw [hs3]
    split
    · exact cascade_foldl_okAt_preserved p ev.link ev.time l _ s2 h
    · exact h
  have hok3_repairF : r.2.1 = true →
      ∀ x ∈ p.grid.node_active_links a, x ≠ -1 → x ≠ (ev.link : ℤ) →
        okAt p s3 x.toNat := by
    intro hf x hx h1 h2
    rw [hs3, if_pos hf]
    exact cascade_foldl_okAt_repair p ev.link ev.time _ s2 x hx h1 h2
  refine ⟨?_, ?_, ?_⟩
  case refine_2 =>
    split
    · exact cascade_foldl_nodeStatesOk p ev.link ev.time _ s3 hns3
    · exact hns3
  case refine_3 =>
    split
    · exact cascade_foldl_queueOrientOk p hxn hb ev.link ev.time _ s3 hns3 hq3
    · exact hq3
  case refine_1 =>
  have hokF_pres : ∀ l, okAt p s3 l →
      okAt p (if r.2.2 = true then
        (p.grid.node_active_links bn).foldl (cascade_step p ev.link ev.time) s3
      else s3) l := by
    intro l h
    split
    · exact cascade_foldl_okAt_preserved p ev.link ev.time l _ s3 h
    · exact h
  have hokF_repairT : r.2.2 = true →
      ∀ x ∈ p.grid.node_active_links bn, x ≠ -1 → x ≠ (ev.link : ℤ) →
        okAt p (if r.2.2 = true then
          (p.grid.node_active_links bn).foldl (cascade_step p ev.link ev.time)
            s3
        else s3) x.toNat := by
    intro hf x hx h1 h2
    rw [if_pos hf]
    exact cascade_foldl_okAt_repair p ev.link ev.time _ s3 x hx h1 h2
  intro l hlL
  by_cases hl : l = ev.link
  · subst hl
    exact hokF_pres ev.link (hok3_pres ev.link (hok_event hlL))
  · by_cases hchf :
        r.1.node_state (p.grid.activelink_fromnode l) =
            s.node_state (p.grid.activelink_fromnode l) ∧
          r.1.node_state (p.grid.activelink_tonode l) =
            s.node_state (p.grid.activelink_tonode l)
    · apply hokF_pres
      apply hok3_pres
      unfold okAt
      rw [hs2, update_link_state_link_state_ne p ev.link ev.xn_to ev.time
        r.1 l hl, update_link_state_node_state, hchf.1, hchf.2, hr,
        update_node_states_fst_link_state]
      exact hlc l hlL
    · have hcast1 : (l : ℤ) ≠ -1 := by omega
      have hcast2 : (l : ℤ) ≠ (ev.link : ℤ) := by
        intro hc
        exact hl (by omega)
      rcases not_and_or.mp hchf with hcf | hct
      · have hch : (update_node_states p a bn ev.xn_to s).1.node_state
            (p.grid.activelink_fromnode l) ≠
              s.node_state (p.grid.activelink_fromnode l) := by
          rw [← hr]
          exact hcf
        rcases update_node_states_changed p a bn ev.xn_to s _ hch with
          ⟨hja, hfl⟩ | ⟨hjb, htl⟩
        · have hmem : (l : ℤ) ∈ p.grid.node_active_links a := by
            rw [← hja]
            exact (hgc l hlL).2.1
          have hrep := hok3_repairF (by rw [hr]; exact hfl) (l : ℤ) hmem
            hcast1 hcast2
          rw [Int.toNat_natCast] at hrep
          exact hokF_pres l hrep
        · have hmem : (l : ℤ) ∈ p.grid.node_active_links bn := by
            rw [← hjb]
            exact (hgc l hlL).2.1
          have hrep := hokF_repairT (by rw [hr]; exact htl) (l : ℤ) hmem
            hcast1 hcast2
          rw [Int.toNat_natCast] at hrep
          exact hrep
      · have hch : (update_node_states p a bn ev.xn_to s).1.node_state
            (p.grid.activelink_tonode l) ≠
              s.node_state (p.grid.activelink_tonode l) := by
          rw [← hr]
          exact hct
        rcases update_node_states_changed p a bn ev.xn_to s _ hch with
          ⟨hja, hfl⟩ | ⟨hjb, htl⟩
        · have hmem : (l : ℤ) ∈ p.grid.node_active_links a := by
            rw [← hja]
            exact (hgc l hlL).2.2
          have hrep := hok3_repairF (by rw [hr]; exact hfl) (l : ℤ) hmem
            hcast1 hcast2
          rw [Int.toNat_natCast] at hrep
          exact hokF_pres l hrep
        · have hmem : (l : ℤ) ∈ p.grid.node_active_links bn := by
            rw [← hjb]
            exact (hgc l hlL).2.2
          have hrep := hokF_repairT (by rw [hr]; exact htl) (l : ℤ) hmem
            hcast1 hcast2
          rw [Int.toNat_natCast] at hrep
          exact hrep

lemma engineInv_queue_pop (p : CAParams) (s : CAState) (rest : List Event)
    (hinv : engineInv p s) (hsub : ∀ x ∈ rest, x ∈ s.event_queue) :
    engineInv p { s with event_queue := rest } := by
  obtain ⟨hlc, hns, hqo⟩ := hinv
  exact ⟨fun l hl => hlc l hl, hns, fun e he => hqo e (hsub e he)⟩

/-- The engine invariant is preserved by any number of `run` iterations. -/
lemma run_engineInv (p : CAParams) (hxn : xnPreservesOrientation p)
    (hb : samplesBounded p) (hgc : gridContract p) :
    ∀ (fuel : ℕ) (run_duration : ℚ) (s : CAState), engineInv p s →
      engineInv p (run p fuel run_duration s).1 := by
  intro fuel
  induction fuel with
  | zero => exact fun _ s h => h
  | succ n ih =>
    intro d s hinv
    rw [run]
    split
    · rcases hpop : popMin s.event_queue with _ | ⟨ev, rest⟩
      · exact hinv
      · dsimp only
        have hev := hinv.2.2 ev (popMin_mem hpop)
        have hpopinv : engineInv p { s with event_queue := rest } :=
          engineInv_queue_pop p s rest hinv (popMin_rest_mem hpop)
        have hs1 := do_transition_engineInv p hxn hb hgc ev s.current_time
          { s with event_queue := rest } hpopinv hev
        have hs2 : engineInv p
            { do_transition p ev s.current_time { s with event_queue := rest }
              with current_time := ev.time } :=
          ⟨fun l hl => hs1.1 l hl, hs1.2.1, fun e he => hs1.2.2 e he⟩
        have hrun := ih d _ hs2
        split
        · exact hrun
        · exact hrun
    · exact hinv

lemma foldl_preserves_mem {α β : Type} {f : α → β → α} {P : α → Prop} :
    ∀ (l : List β), (∀ a b, b ∈ l → P a → P (f a b)) →
      ∀ a, P a → P (l.foldl f a) := by
  intro l
  induction l with
  | nil => exact fun _ a h => h
  | cons b bs ih =>
    intro hstep a ha
    rw [List.foldl_cons]
    exact ih (fun a' b' hb' h' => hstep a' b' (List.mem_cons_of_mem b hb') h')
      _ (hstep a b (List.mem_cons_self b bs) ha)

lemma push_transitions_step_engineInv (p : CAParams)
    (hxn : xnPreservesOrientation p) (hb : samplesBounded p)
    (st : CAState) (i : ℕ) (hiL : i < p.grid.number_of_active_links)
    (hinv : engineInv p st) :
    engineInv p (push_transitions_step p st i) := by
  obtain ⟨hlc, hns, hqo⟩ := hinv
  have hok := hlc i hiL
  unfold push_transitions_step
  split
  · rename_i hpos
    refine ⟨fun l hl => hlc l hl, hns, ?_⟩
    intro e he
    dsimp only at he
    rcases List.mem_append.mp he with h1 | h1
    · exact hqo e h1
    · rw [List.mem_singleton.mp h1]
      apply pushed_event_orient_ok p hxn hb i (st.link_state i) 0 st.ctr hpos
      unfold okAt at hok
      rw [hok]
      exact ⟨link_state_dict_lt (hns _) (hns _)
          (active_link_orientation_lt_two _ _),
        link_state_dict_orient (hns _) (hns _)
          (active_link_orientation_lt_two _ _)⟩
  · exact ⟨fun l hl => hlc l hl, hns, fun e he => hqo e he⟩

/-- Construction establishes the engine invariant. -/
lemma construct_engineInv (p : CAParams) (hxn : xnPreservesOrientation p)
    (hb : samplesBounded p) (initial_node_states : ℕ → ℕ)
    (hinit : ∀ j, initial_node_states j < p.num_node_states) :
    engineInv p (construct p initial_node_states) := by
  unfold construct push_transitions_to_event_queue
  apply foldl_preserves_mem (List.range p.grid.number_of_active_links)
  · intro st i hi h
    exact push_transitions_step_engineInv p hxn hb st i
      (List.mem_range.mp hi) h
  · refine ⟨?_, fun j => hinit j, fun e he => absurd he (List.not_mem_nil e)⟩
    intro l hl
    unfold okAt assign_link_states_from_node_types
    dsimp only
    rw [if_pos hl]

/-- C1 counterexample: the rule `1 → 7` maps a horizontal link state to a
vertical one; it passes every constructor check, yet after one applied event
link 0 stores state `7` while its endpoints and horizontal orientation encode
state `3`. The invariant as claimed fails for a constructible engine. -/
theorem C1_counterexample :
    ¬ linkConsistent exBadP (run exBadP 1 1 (construct exBadP exInit)).1 := by
  intro h
  have hok := h 0 (by norm_num [exBadP, exGrid])
  unfold okAt at hok
  norm_num [run, popMin, do_transition, exBadP, exGrid, exInit, construct,
    push_transitions_to_event_queue, push_transitions_step,
    assign_link_states_from_node_types, get_next_event, update_link_state,
    update_node_states, cascade_step, fupd, sample, numpy_random_exponential,
    nXn, xnTo, xnRate, cell_pair_at, cell_pair_two, link_state_dict,
    dict_index, num_link_states, NEVER, CORE_NODE, active_link_orientation,
    number_of_vertical_links, range_one_eq, List.foldl_cons,
    List.foldl_nil] at hok

/-- C1 amended: after engine construction and any number of `do_transition`
applications performed by `run`, every active link's stored state equals the
codec encoding of its endpoints' current states and its orientation —
provided the initial node states are in range, the grid honours its
adapter contract, every transition rule's target state is in range and has
the same orientation as its source state, and the exponential waiting-time
samples stay below the `_NEVER` sentinel. -/
theorem C1_link_states_remain_consistent (p : CAParams)
    (initial_node_states : ℕ → ℕ) (fuel : ℕ) (run_duration : ℚ)
    (hinit : ∀ j, initial_node_states j < p.num_node_states)
    (hgc : gridContract p)
    (hxn : xnPreservesOrientation p)
    (hb : samplesBounded p) :
    linkConsistent p
      (run p fuel run_duration (construct p initial_node_states)).1 :=
  (run_engineInv p hxn hb hgc fuel run_duration _
    (construct_engineInv p hxn hb initial_node_states hinit)).1

/-- Witness for C1's amended statement: the orientation-preserving engine
`exP` run from construction. -/
theorem C1_link_states_remain_consistent_witness :
    linkConsistent exP (run exP 2 1 (construct exP exInit)).1 :=
  C1_link_states_remain_consistent exP exInit 2 1
    (fun j => Nat.mod_lt j (by decide))
    (by decide) (by decide)
    (by
      intro st i k
      norm_num [sample, numpy_random_exponential, exP, NEVER])

end LinkCA
